import Mathlib

/-
Verification of the CppLox bytecode virtual machine (Paneer007/CppLox)
against its natural-language specification.

Each section below is a shallow embedding of one part of the C++ source:
pure functions become Lean functions, stateful code becomes explicit state
passing, machine pointers become numeric object identities or addresses,
and fallible code returns sum types.  IEEE-754 double payloads are
modelled over Int: none of the properties proved here depends on the
numeric value of an arithmetic result, only on the type dispatch around it.
-/

namespace CppLox

/-- Runtime Value (value.hpp, tagged-union representation): nil, boolean,
double number (abstracted to Int, see header comment), or a pointer to a
heap object.  Pointers are modelled as numeric object identities. -/
inductive Value where
  | nil
  | boolean (b : Bool)
  | number (n : Int)
  | obj (id : Nat)
  deriving DecidableEq, Repr

/-- ObjString payload (object.hpp): the character array and the stored
primary hash field.  The `length` field of the C struct always equals the
length of `chars` and is modelled by `chars.length`.  The hash is stored at
allocation time and never recomputed, so it is an independent field. -/
structure ObjString where
  chars : List Char
  hash : Nat
  deriving DecidableEq, Repr

/-- Heap object variants needed by the value-manipulating opcodes
(object.hpp).  Variants whose payload is irrelevant to the claims under
study are collapsed into `otherObj`. -/
inductive HeapObj where
  | str (s : ObjString)
  | list (items : List Value)
  | otherObj
  deriving DecidableEq, Repr

/-- The object heap: object identity (pointer) to payload. -/
abbrev Heap := List (Nat × HeapObj)

/-- IS_STRING plus AS_STRING (object.hpp): a value is a string when it is an
object reference whose heap payload is an ObjString; returns that payload. -/
def heapStr (h : Heap) (v : Value) : Option ObjString :=
  match v with
  | .obj id =>
    match h.lookup id with
    | some (.str s) => some s
    | _ => none
  | _ => none

/-- IS_LIST plus AS_LIST (object.hpp). -/
def heapList (h : Heap) (v : Value) : Option (List Value) :=
  match v with
  | .obj id =>
    match h.lookup id with
    | some (.list items) => some items
    | _ => none
  | _ => none

/-- IS_NUMBER (value.hpp). -/
def isNumber : Value → Bool
  | .number _ => true
  | _ => false

/-- AS_NUMBER (value.hpp); only ever read behind an IS_NUMBER check, the
default for other variants is irrelevant. -/
def asNumber : Value → Int
  | .number n => n
  | _ => 0

/-! ## Constant pool (Chunk::addConstant, compiler makeConstant) — claim C5 -/

/-- The constant pool of a chunk (value.cpp ValueArray): `count` is
`values.length`. -/
structure ValueArray where
  values : List Value
  deriving DecidableEq, Repr

/-- Chunk::addConstant (chunk.cpp lines 74-81): push the value on the VM
stack (GC protection, no effect on the pool), append it to the constants
array, pop, and return `count - 1`, the index of the appended value. -/
def addConstant (arr : ValueArray) (v : Value) : ValueArray × Nat :=
  (⟨arr.values ++ [v]⟩, arr.values.length)

/-- Result of the compiler helper makeConstant. -/
inductive MakeConstantResult where
  | ok (idx : Nat)
  | tooManyConstants
  deriving DecidableEq, Repr

/-- makeConstant (compiler, src/unnamed/part_001 lines 321-330): call
addConstant; if the returned index is greater than UINT8_MAX (255) report
the compile error "Too many constants in one chunk." and return 0,
otherwise return the index cast to uint8 (the cast is exact since the
index is at most 255). -/
def makeConstant (arr : ValueArray) (v : Value) : ValueArray × MakeConstantResult :=
  let r := addConstant arr v
  if r.2 > 255 then (r.1, .tooManyConstants) else (r.1, .ok r.2)

/-! ## The BINARY_OP dispatch lambda (VM::run, vm.cpp) — claim C3 -/

/-- Outcome of one arithmetic/comparison opcode: either
runtimeError(msg) followed by returning INTERPRET_RUNTIME_ERROR, or the
value pushed with execution continuing (INTERPRET_CONTINUE). -/
inductive StepRes where
  | runtimeError (msg : String)
  | ok (v : Value)
  deriving DecidableEq, Repr

/-- The BINARY_OP lambda of VM::run (vm.cpp lines 646-722), as invoked by
the OP_SUBTRACT / OP_MULTIPLY / OP_DIVIDE / OP_MODULUS / OP_GREATER /
OP_LESS handlers.  `vL` is peek(1) (the left operand, deeper on the
stack) and `vR` is peek(0) (the right operand, the stack top).  The
lambda is never invoked with op = plus — OP_ADD has its own inline
handler — so that dead branch is not part of this embedding.  In the
minus branch the source binds a = AS_STRING(peek(0)) and
b = AS_STRING(peek(1)) and pushes b.chars[0] - a.chars[0].  C `char`
arithmetic is modelled through the character code (Char.toNat); the `%`
branch casts both doubles to int and applies C `%`, which truncates
toward zero (Int.tmod). -/
def binaryOp (h : Heap) (op : Char) (vL vR : Value) : StepRes :=
  if op = '-' then
    match heapStr h vR, heapStr h vL with
    | some a, some b =>
      if b.chars.length ≠ 1 ∨ a.chars.length ≠ 1 then
        .runtimeError "Operands must be two characters"
      else
        .ok (.number ((b.chars.headI.toNat : Int) - (a.chars.headI.toNat : Int)))
    | _, _ =>
      if isNumber vR ∧ isNumber vL then
        .ok (.number (asNumber vL - asNumber vR))
      else
        .runtimeError "Operands must be two numbers or two chars"
  else
    if ¬ isNumber vR ∨ ¬ isNumber vL then
      .runtimeError "Operands must be numbers."
    else
      let b := asNumber vR
      let a := asNumber vL
      if op = '*' then .ok (.number (a * b))
      else if op = '/' then .ok (.number (a / b))
      else if op = '%' then .ok (.number (Int.tmod a b))
      else if op = '>' then .ok (.boolean (decide (a > b)))
      else if op = '<' then .ok (.boolean (decide (a < b)))
      else .runtimeError "Invalid Binary Operator."

/-- Concrete heap holding the one-character strings "a" (object 1) and
"b" (object 2); the stored hash fields are not read by binaryOp. -/
def c3Heap : Heap := [(1, .str ⟨['a'], 0⟩), (2, .str ⟨['b'], 0⟩)]

/-! ## String interning (object.cpp, vm.cpp concatenate) — claims C1, C9 -/

/-- hashString (object.cpp lines 23-40): 32-bit FNV-1a over the bytes of
the string, with uint32 wraparound. -/
def hashString (chars : List Char) : Nat :=
  chars.foldl (fun h c => ((h ^^^ c.toNat % 256) * 16777619) % 2 ^ 32) 2166136261

/-- The string-owning part of the VM state: the allocation cursor for
fresh object identities (C pointers are modelled by allocation order),
the string heap (vm->objects restricted to ObjString), and the key set of
the vm->strings intern table. -/
structure InternVM where
  nextId : Nat
  heap : List (Nat × ObjString)
  strings : List Nat
  deriving DecidableEq, Repr

/-- Table::tableFindString (table.cpp, default single-threaded branch):
return the interned string whose length, stored hash, and bytes all match,
or NULL.  The open-addressing probe order decides only which of several
equal-content keys would be found; since interning never stores two
equal-content keys via copyString, the table is observed here through its
key set.  (The probe structure itself is embedded and verified in the
globals-table section below.) -/
def tableFindString (vm : InternVM) (chars : List Char) (hash : Nat) : Option Nat :=
  vm.strings.find? (fun id =>
    match vm.heap.lookup id with
    | some s => s.chars.length == chars.length && s.hash == hash && s.chars == chars
    | none => false)

/-- allocateString (object.cpp lines 554-565): allocate a fresh ObjString
object (linked at the head of vm->objects), store the chars and hash, and
unconditionally add it to the vm->strings intern table via tableSet. -/
def allocateString (vm : InternVM) (chars : List Char) (hash : Nat) : InternVM × Nat :=
  (⟨vm.nextId + 1, (vm.nextId, ⟨chars, hash⟩) :: vm.heap, vm.nextId :: vm.strings⟩, vm.nextId)

/-- copyString (object.cpp lines 579-590): hash the bytes, look the
content up in the intern table, and return the existing object on a hit;
otherwise copy the bytes to a fresh buffer and allocateString. -/
def copyString (vm : InternVM) (chars : List Char) : InternVM × Nat :=
  let hash := hashString chars
  match tableFindString vm chars hash with
  | some id => (vm, id)
  | none => allocateString vm chars hash

/-- takeString (object.cpp lines 608-612): hash the bytes and call
allocateString directly.  Note: unlike copyString, the source performs no
tableFindString lookup before allocating, although its own doc comment
says it "checks for string interning". -/
def takeString (vm : InternVM) (chars : List Char) : InternVM × Nat :=
  allocateString vm chars (hashString chars)

/-- VM::concatenate (vm.cpp lines 528-543): a = peek(1), b = peek(0);
build the byte concatenation of a and b and hand the buffer to
takeString; the result replaces the two operands on the stack. -/
def concatenate (vm : InternVM) (aId bId : Nat) : InternVM × Nat :=
  match vm.heap.lookup aId, vm.heap.lookup bId with
  | some a, some b => takeString vm (a.chars ++ b.chars)
  | _, _ => (vm, 0)

/-- valuesEqual (value.cpp lines 110-134) on two object values: pointer
identity. -/
def valuesEqualObj (i j : Nat) : Bool := i == j

/-- Association-list update: the in-place mutation of the object that the
identity k points to. -/
def setAssoc {α : Type} (l : List (Nat × α)) (k : Nat) (a : α) : List (Nat × α) :=
  l.map (fun p => if p.1 = k then (k, a) else p)

/-- storeToString (object.cpp lines 491-494): write item->chars[0] into
string->chars[index], in place; no other field of either object changes.
chars[0] of a zero-length ObjString is its NUL terminator byte. -/
def storeToString (vm : InternVM) (sId : Nat) (index : Nat) (itemId : Nat) : InternVM :=
  match vm.heap.lookup sId, vm.heap.lookup itemId with
  | some s, some item =>
    ⟨vm.nextId, setAssoc vm.heap sId ⟨s.chars.set index (item.chars.headD (Char.ofNat 0)), s.hash⟩,
     vm.strings⟩
  | _, _ => vm

/-- isValidStringIndex (object.cpp lines 504-510). -/
def isValidStringIndex (s : ObjString) (index : Int) : Bool :=
  if index < 0 ∨ index > (s.chars.length : Int) - 1 then false else true

/-- Outcome of OP_INDEX_SET. -/
inductive IndexSetRes where
  | runtimeError (msg : String)
  | ok (pushed : Value)
  | undefined
  deriving DecidableEq, Repr

/-- The string branch of OP_INDEX_SET (vm.cpp lines 1095-1143).  The three
stack inputs are the indexed object, the index, and the item; the list
branch operates on a disjoint heap variant and is not needed by the
claims about strings.  The source casts the item with AS_STRING without
an IS_STRING guard, so a non-string item is an unchecked reinterpretation
(modelled as the `undefined` outcome). -/
def opIndexSet (vm : InternVM) (stObj stIndex stItem : Value) : InternVM × IndexSetRes :=
  match stObj with
  | .obj sId =>
    match vm.heap.lookup sId with
    | some s =>
      match stIndex with
      | .number idx =>
        if isValidStringIndex s idx = false then
          (vm, .runtimeError "Invalid list index.")
        else
          match stItem with
          | .obj itemId =>
            match vm.heap.lookup itemId with
            | some item =>
              if item.chars.length > 1 then (vm, .runtimeError "Invalid assignment value")
              else (storeToString vm sId idx.toNat itemId, .ok stItem)
            | none => (vm, .undefined)
          | _ => (vm, .undefined)
      | _ => (vm, .runtimeError "List index is not a number.")
    | none => (vm, .runtimeError "Cannot store value in a non-list.")
  | _ => (vm, .runtimeError "Cannot store value in a non-list.")

/-- Scenario for claim C1: intern the literal "hello", then the literals
"he" and "llo", then execute ADD on the latter two (VM::concatenate). -/
def c1VM0 : InternVM := ⟨0, [], []⟩

/-- The interned literal "hello". -/
def c1Lit : InternVM × Nat := copyString c1VM0 ['h', 'e', 'l', 'l', 'o']

/-- The interned literal "he". -/
def c1He : InternVM × Nat := copyString c1Lit.1 ['h', 'e']

/-- The interned literal "llo". -/
def c1Llo : InternVM × Nat := copyString c1He.1 ['l', 'l', 'o']

/-- The result of ADD on "he" and "llo". -/
def c1Cat : InternVM × Nat := concatenate c1Llo.1 c1He.2 c1Llo.2

/-- Concrete VM for the C9 witness: string "abc" (object 0) and the
one-character string "z" (object 1). -/
def c9VM : InternVM := ⟨2, [(0, ⟨['a', 'b', 'c'], 7⟩), (1, ⟨['z'], 9⟩)], [0, 1]⟩

/-! ## Native functions (vm.cpp) — claim C7 -/

/-- Control-flow outcome of a native call.  `fromHost` stands for the
success paths that return an environment-supplied value (stdin token,
clock, random number); `hostExit c` is a call to exit(c), which
terminates the whole host process; `undefinedAccess` is an unchecked
AS_LIST reinterpretation or a read past the argument window.  The native
functions of this VM have no constructor for a Lox runtime error because
none of their control paths raises one. -/
inductive NativeOutcome where
  | ok (v : Value)
  | fromHost
  | hostExit (code : Nat)
  | undefinedAccess
  deriving DecidableEq, Repr

/-- objLength — the `len` native (vm.cpp lines 308-330): a wrong argument
count or a non-string non-list argument executes exit(0). -/
def objLength (h : Heap) (args : List Value) : NativeOutcome :=
  if args.length ≠ 1 then .hostExit 0
  else if (heapStr h (args.getD 0 .nil)).isNone ∧ (heapList h (args.getD 0 .nil)).isNone then
    .hostExit 0
  else
    match heapStr h (args.getD 0 .nil) with
    | some s => .ok (.number s.chars.length)
    | none =>
      match heapList h (args.getD 0 .nil) with
      | some items => .ok (.number items.length)
      | none => .ok (.number (-1))

/-- strInput — the `str_input` native (vm.cpp lines 251-268): more than
one argument, or one non-string argument, executes exit(0); otherwise the
native prints the optional prompt and returns a token read from stdin. -/
def strInput (h : Heap) (args : List Value) : NativeOutcome :=
  if args.length > 1 then .hostExit 0
  else if args.length = 1 ∧ (heapStr h (args.getD 0 .nil)).isNone then .hostExit 0
  else .fromHost

/-- charInput — the `char_input` native (vm.cpp lines 270-287), same check
structure as strInput. -/
def charInput (h : Heap) (args : List Value) : NativeOutcome :=
  if args.length > 1 then .hostExit 0
  else if args.length = 1 ∧ (heapStr h (args.getD 0 .nil)).isNone then .hostExit 0
  else .fromHost

/-- intInput — the `int_input` native (vm.cpp lines 289-306), same check
structure as strInput. -/
def intInput (h : Heap) (args : List Value) : NativeOutcome :=
  if args.length > 1 then .hostExit 0
  else if args.length = 1 ∧ (heapStr h (args.getD 0 .nil)).isNone then .hostExit 0
  else .fromHost

/-- clockNative (vm.cpp lines 344-347): no argument check at all. -/
def clockNative (h : Heap) (args : List Value) : NativeOutcome := .fromHost

/-- randNative (vm.cpp lines 360-364): no argument check at all. -/
def randNative (h : Heap) (args : List Value) : NativeOutcome := .fromHost

/-- appendNative (vm.cpp lines 220-231): the arity/type check
`argCount != 2 || !IS_LIST(args[0])` has an empty body ("// Handle
error"), after which AS_LIST(args[0]) and args[1] are accessed
unconditionally; a non-list first argument is an unchecked
reinterpretation and a missing second argument reads past the argument
window. -/
def appendNative (h : Heap) (args : List Value) : Heap × NativeOutcome :=
  match args.getD 0 .nil with
  | .obj id =>
    match h.lookup id with
    | some (.list items) =>
      if args.length = 2 then
        (setAssoc h id (.list (items ++ [args.getD 1 .nil])), .ok .nil)
      else (h, .undefinedAccess)
    | _ => (h, .undefinedAccess)
  | _ => (h, .undefinedAccess)

/-- deleteNative (vm.cpp lines 233-249): both the arity/type check and the
isValidListIndex check have empty bodies, after which deleteFromList runs
unconditionally; on a valid list and in-range index the effect is the
eraseIdx of that element, every other shape is an unchecked access. -/
def deleteNative (h : Heap) (args : List Value) : Heap × NativeOutcome :=
  match args.getD 0 .nil with
  | .obj id =>
    match h.lookup id with
    | some (.list items) =>
      match args.getD 1 .nil with
      | .number idx =>
        if args.length = 2 then
          if 0 ≤ idx ∧ idx ≤ (items.length : Int) - 1 then
            (setAssoc h id (.list (items.eraseIdx idx.toNat)), .ok .nil)
          else (h, .undefinedAccess)
        else (h, .undefinedAccess)
      | _ => (h, .undefinedAccess)
    | _ => (h, .undefinedAccess)
  | _ => (h, .undefinedAccess)

/-! ## Sibling-VM spawn (VM::copyParent, vm.cpp lines 1440-1479) — claim C2 -/

/-- A call frame as seen by the spawn copy: `slots` is a raw Value pointer
into some VM value stack, modelled as an absolute address. -/
structure MFrame where
  slotsAddr : Int
  deriving DecidableEq, Repr

/-- The stack-related part of a VM object for the spawn snapshot: the
address of element 0 of the fixed `stack` array, the cell contents of
that array, the raw `stackTop` pointer as an absolute address, and the
call frames. -/
structure MVM where
  stackBase : Int
  cells : List Value
  stackTopAddr : Int
  frames : List MFrame
  frameCount : Nat
  deriving DecidableEq, Repr

/-- STACK_MAX = FRAMES_MAX * UINT8_COUNT = 64 * 256 (vm.hpp). -/
def STACK_MAX : Nat := 16384

/-- The address addr lies inside this VM object's stack array. -/
def inStackRegion (vm : MVM) (addr : Int) : Prop :=
  vm.stackBase ≤ addr ∧ addr < vm.stackBase + (STACK_MAX : Int)

instance (vm : MVM) (addr : Int) : Decidable (inStackRegion vm addr) := by
  unfold inStackRegion
  infer_instance

/-- VM::copyParent (vm.cpp lines 1440-1479), stack-snapshot part, executed
by the child VM object: std::copy of the frames array (the source reads
parent->frames + 2048 from the 64-entry array — the overrun does not
affect the first frameCount frames modelled here) and of the stack cells;
then `auto diff = parent->stackTop - stack;` — in this member function
`stack` resolves to the CHILD member `this->stack`, so diff is the
distance from the child stack base to the parent stackTop pointer — and
`this->stackTop = this->stack + diff;`.  frameCount is copied; the
globals/intern/GC re-initialisation that follows does not touch these
fields. -/
def copyParent (child parent : MVM) : MVM :=
  { stackBase := child.stackBase,
    cells := parent.cells,
    stackTopAddr := child.stackBase + (parent.stackTopAddr - child.stackBase),
    frames := parent.frames,
    frameCount := parent.frameCount }

/-- VM::push (vm.cpp lines 1213-1217): write the value through the raw
stackTop pointer and advance it; the returned address is the cell the
write lands in. -/
def pushTargetAddr (vm : MVM) : Int := vm.stackTopAddr

/-! ## finish / async opcodes (vm.cpp lines 1144-1176, dispatcher.cpp) —
claim C8 -/

/-- Lifetime state of the std::thread object whose address OP_ASYNC_BEGIN
registers in the finish stack. -/
inductive HandleState where
  | joinableLocal
  | destroyed
  deriving DecidableEq, Repr

/-- The finish/async bookkeeping of a VM: the finish-stack depth counter,
the registered (depth, handle-address) pairs, the lifetime state of each
block-scoped std::thread local by address, an address allocator, and
whether std::terminate has fired. -/
structure FinishVM where
  finishStackCount : Nat
  finishStack : List (Nat × Nat)
  locals : List (Nat × HandleState)
  nextAddr : Nat
  terminated : Bool
  deriving DecidableEq, Repr

/-- OP_FINISH_BEGIN (vm.cpp lines 1144-1147): increment the depth
counter. -/
def opFinishBegin (vm : FinishVM) : FinishVM :=
  { vm with finishStackCount := vm.finishStackCount + 1 }

/-- OP_ASYNC_BEGIN (vm.cpp lines 1158-1170) with Dispatcher::asyncBegin
(dispatcher.cpp lines 135-146): a sibling VM is prepared and a
std::thread running it is returned BY VALUE into the block-scoped local
`new_thread`; the ADDRESS of that local is pushed into
finishStack[finishStackCount]; the handler then reads the jump operand
and executes NEXT_INSTRCTN(), a computed goto whose target labels lie
outside the block, ending the lifetime of `new_thread`.  The thread has
been neither joined nor detached, so the destructor of the still-joinable
std::thread calls std::terminate (C++ [thread.thread.destr]), aborting
the whole process before any further opcode — in particular before the
OP_FINISH_END that would join the group — can run. -/
def opAsyncBegin (vm : FinishVM) : FinishVM :=
  let addr := vm.nextAddr
  { finishStackCount := vm.finishStackCount,
    finishStack := (vm.finishStackCount, addr) :: vm.finishStack,
    locals := (addr, HandleState.destroyed) :: vm.locals,
    nextAddr := addr + 1,
    terminated := true }

/-- A freshly initialised VM for the C8 evaluation. -/
def c8VM0 : FinishVM := ⟨0, [], [], 0, false⟩

/-! ## Garbage collector (memory.cpp) — claims C4, C6 -/

/-- Heap-object payloads carrying exactly the outgoing references that
blackenObject (memory.cpp lines 133-187) traverses per variant. -/
inductive GPayload where
  | boundMethod (receiver : Value) (method : Nat)
  | classObj (name : Nat) (methods : List (Nat × Value))
  | instanceObj (klass : Nat) (fields : List (Nat × Value))
  | closure (function : Nat) (upvalues : List (Option Nat))
  | functionObj (name : Option Nat) (constants : List Value)
  | upvalue (closed : Value)
  | listObj (items : List Value)
  | nativeObj
  | strPayload
  deriving DecidableEq, Repr

/-- markValue (memory.cpp lines 101-105): only object values are marked. -/
def valueRefs : Value → List Nat
  | .obj id => [id]
  | _ => []

/-- Table::markTable (table.cpp lines 650-657): both the key object and
the value of every entry are marked. -/
def tableRefs (t : List (Nat × Value)) : List Nat :=
  t.foldr (fun e acc => e.1 :: (valueRefs e.2 ++ acc)) []

/-- markArray (memory.cpp lines 116-121). -/
def valuesRefs (vs : List Value) : List Nat :=
  vs.foldr (fun v acc => valueRefs v ++ acc) []

/-- blackenObject (memory.cpp lines 133-187): the referents an object of
each variant marks; markObject(NULL) is a no-op, hence the filterMap over
a closure upvalue array that may still hold NULLs mid-construction. -/
def refsOf : GPayload → List Nat
  | .boundMethod r m => valueRefs r ++ [m]
  | .classObj n ms => n :: tableRefs ms
  | .instanceObj k fs => k :: tableRefs fs
  | .closure f us => f :: us.filterMap id
  | .functionObj n cs => n.toList ++ valuesRefs cs
  | .upvalue c => valueRefs c
  | .listObj items => valuesRefs items
  | .nativeObj => []
  | .strPayload => []

/-- An object on the vm->objects list: identity (pointer), mark flag, the
bytes accounted to it through reallocate (freeObject returns exactly
these bytes when the object is freed), and payload. -/
structure GCObj where
  id : Nat
  marked : Bool
  size : Nat
  payload : GPayload
  deriving DecidableEq, Repr

/-- The GC-relevant VM state (vm.hpp fields read by memory.cpp). -/
structure GCState where
  objects : List GCObj
  stack : List Value
  frames : List Nat
  openUpvalues : List Nat
  globals : List (Nat × Value)
  compilerRoots : List Nat
  initString : Option Nat
  internKeys : List Nat
  bytesAllocated : Nat
  nextGC : Nat
  deriving DecidableEq, Repr

/-- Pointer dereference on the object list. -/
def findObj (objs : List GCObj) (i : Nat) : Option GCObj :=
  objs.find? (fun o => o.id == i)

/-- The identities present on the object list. -/
def gcIds (objs : List GCObj) : Finset Nat := (objs.map GCObj.id).toFinset

/-- The references the object with identity i propagates.  In C every
referent of a live object is itself an object on the vm->objects list
(object pointers are only ever produced by allocateObject), so the
references are read off the list and restricted to it. -/
def refsOfId (objs : List GCObj) (i : Nat) : Finset Nat :=
  match findObj objs i with
  | some o => (refsOf o.payload).toFinset.filter (fun j => j ∈ gcIds objs)
  | none => ∅

/-- markRoots (memory.cpp lines 279-295): every stack value, every call
frame closure, every open upvalue, every globals entry (key and value),
the compiler chain, and the init string. -/
def rootIds (st : GCState) : List Nat :=
  valuesRefs st.stack ++ st.frames ++ st.openUpvalues ++ tableRefs st.globals ++
    st.compilerRoots ++ st.initString.toList

/-- The root objects as a set. -/
def seedSet (st : GCState) : Finset Nat :=
  (rootIds st).toFinset.filter (fun j => j ∈ gcIds st.objects)

/-- One round of gray-stack propagation (traceReferences drains the gray
worklist; one markStep application performs one frontier expansion). -/
def markStep (objs : List GCObj) (s : Finset Nat) : Finset Nat :=
  s ∪ s.biUnion (refsOfId objs)

/-- The set of objects markRoots plus traceReferences marks: the closure
of the root set under the reference relation, reached as the fixed point
of markStep (card (gcIds) + 1 rounds always suffice — see reachable_fix). -/
def reachableSet (st : GCState) : Finset Nat :=
  (markStep st.objects)^[(gcIds st.objects).card + 1] (seedSet st)

/-- collectGarbage steps 1-2, markRoots plus traceReferences (memory.cpp
lines 279-312): set the mark flag of every object reachable from the
roots.  markObject early-returns on an already-marked object, so this
equals the C traversal on the states that arise in execution, where every
flag is clear when collectGarbage starts (allocateObject clears the flag
and sweep re-clears survivors); the theorems assume that invariant
explicitly. -/
def markPhase (st : GCState) : GCState :=
  { st with objects := st.objects.map (fun o =>
      { o with marked := o.marked || decide (o.id ∈ reachableSet st) }) }

/-- collectGarbage step 3, Table::tableRemoveWhite (table.cpp lines
666-674) on vm.strings, executed before sweep: delete every intern-table
entry whose key object is unmarked. -/
def tableRemoveWhite (st : GCState) : GCState :=
  { st with internKeys := st.internKeys.filter (fun k =>
      match findObj st.objects k with
      | some o => o.marked
      | none => false) }

/-- collectGarbage step 4, sweep (memory.cpp lines 324-346): unlink and
free every unmarked object — freeObject returns its bytes through
reallocate(ptr, oldSize, 0) — and clear the mark of every survivor. -/
def sweep (st : GCState) : GCState :=
  { st with
    objects := (st.objects.filter (fun o => o.marked)).map (fun o => { o with marked := false }),
    bytesAllocated :=
      st.bytesAllocated - ((st.objects.filter (fun o => !o.marked)).map GCObj.size).sum }

/-- collectGarbage (memory.cpp lines 359-380): mark roots, trace, purge
the intern table, sweep, then nextGC := bytesAllocated *
GC_HEAP_GROW_FACTOR (factor 2). -/
def collectGarbage (st : GCState) : GCState :=
  let st3 := sweep (tableRemoveWhite (markPhase st))
  { st3 with nextGC := st3.bytesAllocated * 2 }

/-- Concrete state for the GC witnesses: object 0 (an interned string,
unreachable), object 1 (a list on the stack, referencing object 2),
object 2 (an interned string reachable through the list). -/
def gcWitnessState : GCState :=
  { objects := [⟨0, false, 24, .strPayload⟩, ⟨1, false, 40, .listObj [.obj 2]⟩,
                ⟨2, false, 24, .strPayload⟩],
    stack := [.obj 1],
    frames := [], openUpvalues := [], globals := [], compilerRoots := [],
    initString := none, internKeys := [0, 2], bytesAllocated := 88, nextGC := 1024 }

/-! ## The open-addressing hash table (table.cpp, default single-threaded
branch) and OP_SET_GLOBAL — claim C10 -/

/-- An interned-string key as the table sees it: the object identity (the
ObjString pointer; probe comparison `entry->key == key` is pointer
identity) and its stored hash. -/
structure StrKey where
  id : Nat
  hash : Nat
  deriving DecidableEq, Repr

/-- A table slot (table.hpp Entry): NULL key with nil value is an empty
slot, NULL key with value true is a tombstone, otherwise a live binding. -/
structure TEntry where
  key : Option StrKey
  value : Value
  deriving DecidableEq, Repr

/-- A freshly initialised slot. -/
def emptyEntry : TEntry := ⟨none, Value.nil⟩

/-- The tombstone tableDelete leaves behind. -/
def tombstoneEntry : TEntry := ⟨none, Value.boolean true⟩

/-- The slot terminates a probe scan: key NULL and value nil. -/
def isEmptySlot (e : TEntry) : Bool := decide (e.key = none ∧ e.value = Value.nil)

/-- Table (table.hpp): entry count (including tombstones and the
double-counting quirks of this implementation), capacity, and the entries
array (entries.length = capacity). -/
structure Table where
  count : Nat
  capacity : Nat
  entries : List TEntry
  deriving DecidableEq, Repr

/-- findEntry (table.cpp lines 141-226, default branch): scan from
hash % capacity with +1 linear probing; a truly empty slot ends the scan,
returning the first tombstone seen if any, else that empty slot; a slot
whose key is pointer-equal to the probe key ends the scan at that slot.
The C loop runs forever when the array holds neither an empty slot nor
the key; capacity probe steps visit every slot once, so fuel = capacity
makes `none` model exactly that divergence. -/
def findEntryAux (entries : List TEntry) (cap : Nat) (k : StrKey) :
    Nat → Option Nat → Nat → Option Nat
  | _idx, _tomb, 0 => none
  | idx, tomb, fuel + 1 =>
    if (entries.getD idx emptyEntry).key = none then
      if (entries.getD idx emptyEntry).value = Value.nil then some (tomb.getD idx)
      else findEntryAux entries cap k ((idx + 1) % cap) (tomb.or (some idx)) fuel
    else if (entries.getD idx emptyEntry).key = some k then some idx
    else findEntryAux entries cap k ((idx + 1) % cap) tomb fuel

/-- findEntry proper: start the scan at hash % capacity. -/
def findEntry (entries : List TEntry) (cap : Nat) (k : StrKey) : Option Nat :=
  findEntryAux entries cap k (k.hash % cap) none cap

/-- GROW_CAPACITY (memory.hpp lines 71-74). -/
def GROW_CAPACITY (capacity : Nat) : Nat := if capacity < 8 then 8 else capacity * 2

/-- One old entry processed by the adjustCapacity reinsertion loop. -/
def reinsert (cap : Nat) (acc : Option (List TEntry × Nat)) (e : TEntry) :
    Option (List TEntry × Nat) :=
  match acc with
  | none => none
  | some (es, cnt) =>
    match e.key with
    | none => some (es, cnt)
    | some k =>
      match findEntry es cap k with
      | none => none
      | some idx => some (es.set idx ⟨some k, e.value⟩, cnt + 1)

/-- Table::adjustCapacity (table.cpp lines 237-308, default branch):
allocate a capacity-sized array of empty slots, reinsert every non-NULL
key with findEntry on the new array, incrementing this->count once per
reinserted entry WITHOUT resetting it first (the count inflation is in
the source), free the old array, and install the new entries and
capacity. -/
def adjustCapacity (t : Table) (cap : Nat) : Option Table :=
  match t.entries.foldl (reinsert cap) (some (List.replicate cap emptyEntry, t.count)) with
  | none => none
  | some (es, cnt) => some ⟨cnt, cap, es⟩

/-- Table::tableSet (table.cpp lines 415-457, default branch): grow when
count + 1 > capacity * TABLE_MAX_LOAD (0.75; exactly 4*(count+1) >
3*capacity), then probe; a NULL-key result slot means a new key; count is
incremented twice for an insertion into a truly empty slot and once for
an insertion into a tombstone (the double increment is in the source);
finally the binding is stored and isNewKey returned. -/
def tableSet (t : Table) (k : StrKey) (v : Value) : Option (Table × Bool) :=
  match (if 4 * (t.count + 1) > 3 * t.capacity
      then adjustCapacity t (GROW_CAPACITY t.capacity) else some t) with
  | none => none
  | some t1 =>
    match findEntry t1.entries t1.capacity k with
    | none => none
    | some idx =>
      some (⟨(if (t1.entries.getD idx emptyEntry).key = none ∧
                  (t1.entries.getD idx emptyEntry).value = Value.nil
              then t1.count + 1 else t1.count)
              + (if (t1.entries.getD idx emptyEntry).key = none then 1 else 0),
             t1.capacity, t1.entries.set idx ⟨some k, v⟩⟩,
            decide ((t1.entries.getD idx emptyEntry).key = none))

/-- Outcome of Table::tableGet (table.cpp lines 471-500). -/
inductive GetRes where
  | diverge
  | miss
  | found (v : Value)
  deriving DecidableEq, Repr

/-- Table::tableGet: empty table reports a miss immediately; otherwise
probe and report a miss when the result slot has no key. -/
def tableGet (t : Table) (k : StrKey) : GetRes :=
  if t.count = 0 then .miss
  else
    match findEntry t.entries t.capacity k with
    | none => .diverge
    | some idx =>
      if (t.entries.getD idx emptyEntry).key = none then .miss
      else .found (t.entries.getD idx emptyEntry).value

/-- Table::tableDelete (table.cpp lines 512-540, default branch): on a
hit, place a tombstone (NULL key, true value); count is not decremented. -/
def tableDelete (t : Table) (k : StrKey) : Option (Table × Bool) :=
  if t.count = 0 then some (t, false)
  else
    match findEntry t.entries t.capacity k with
    | none => none
    | some idx =>
      if (t.entries.getD idx emptyEntry).key = none then some (t, false)
      else some (⟨t.count, t.capacity, t.entries.set idx tombstoneEntry⟩, true)

/-- Outcome of the OP_SET_GLOBAL handler. -/
inductive SetGlobalRes where
  | diverge
  | ok (t : Table)
  | undefinedVariable (t : Table)
  deriving DecidableEq, Repr

/-- OP_SET_GLOBAL (vm.cpp lines 979-987): tableSet the name; if that
reports a new key the variable was undefined — tableDelete the tentative
insertion, raise the "Undefined variable" runtime error and return
RUNTIME_ERROR; otherwise the assignment stands. -/
def opSetGlobal (globals : Table) (name : StrKey) (v : Value) : SetGlobalRes :=
  match tableSet globals name v with
  | none => .diverge
  | some (g1, isNew) =>
    if isNew then
      match tableDelete g1 name with
      | none => .diverge
      | some (g2, _) => .undefinedVariable g2
    else .ok g1

/-- The probe passes the slot without stopping or recording: it is
occupied by some other key. -/
def occupiedOther (entries : List TEntry) (k : StrKey) (j : Nat) : Prop :=
  ∃ k2, (entries.getD j emptyEntry).key = some k2 ∧ k2 ≠ k

/-- Number of truly empty slots. -/
def emptyCount (entries : List TEntry) : Nat := entries.countP (fun e => isEmptySlot e)

/-- Number of non-empty slots (live bindings plus tombstones). -/
def fullCount (entries : List TEntry) : Nat := entries.countP (fun e => !(isEmptySlot e))

/-- The representation invariant the table operations maintain: the
entries array has exactly capacity slots, count is at least the number of
non-empty slots (count only ever over-approximates: it is bumped for
every insertion, never decremented by delete, double-counted on fresh
inserts and inflated by adjustCapacity), and the capacity is 0 or at
least 8 (initTable starts at 0, every growth goes through GROW_CAPACITY). -/
def wfTable (t : Table) : Prop :=
  t.entries.length = t.capacity ∧ fullCount t.entries ≤ t.count ∧
    (t.capacity = 0 ∨ 8 ≤ t.capacity)

/-- A concrete globals table for the C10 witness: capacity 8, one live
binding (key id 7, hash 3) and one tombstone; count reflects this
implementation's accounting after such a history. -/
def c10Table : Table :=
  ⟨4, 8, [emptyEntry, emptyEntry, emptyEntry, ⟨some ⟨7, 3⟩, Value.number 1⟩,
          tombstoneEntry, emptyEntry, emptyEntry, emptyEntry]⟩

/-- The undefined variable probed in the C10 witness. -/
def c10Name : StrKey := ⟨9, 11⟩

end CppLox

namespace CppLox

/-- C3 counterexample: the claim says SUB on any non-number operand raises
a runtime error and produces no result value, but executing OP_SUBTRACT on
the two one-character strings "b" (left) and "a" (right) produces the
number 1 (the character-code difference) and no error. -/
theorem c3_counterexample :
    binaryOp c3Heap '-' (Value.obj 2) (Value.obj 1) = StepRes.ok (Value.number 1) ∧
    isNumber (Value.obj 2) = false ∧ isNumber (Value.obj 1) = false := by
  decide

/-- C3 (amended): MUL, DIV and MOD operate on numbers only — whenever
either stack-top operand is not a number they raise the runtime error
"Operands must be numbers." and return RUNTIME_ERROR; SUB likewise raises
a runtime error on every non-number operand shape except when both
operands are strings of length one, in which case it succeeds with the
numeric difference of the two character codes (left minus right). -/
theorem c3_theorem (h : Heap) (vL vR : Value)
    (hnn : ¬(isNumber vL = true ∧ isNumber vR = true)) :
    (∀ op, op = '*' ∨ op = '/' ∨ op = '%' →
      binaryOp h op vL vR = .runtimeError "Operands must be numbers.") ∧
    ((¬ ∃ a b, heapStr h vR = some a ∧ heapStr h vL = some b ∧
        a.chars.length = 1 ∧ b.chars.length = 1) →
      ∃ msg, binaryOp h '-' vL vR = .runtimeError msg) ∧
    (∀ a b, heapStr h vR = some a → heapStr h vL = some b →
      a.chars.length = 1 → b.chars.length = 1 →
      binaryOp h '-' vL vR =
        .ok (.number ((b.chars.headI.toNat : Int) - (a.chars.headI.toNat : Int)))) := by
  refine ⟨?_, ?_, ?_⟩
  · intro op hop
    have hne : op ≠ '-' := by rcases hop with h1 | h1 | h1 <;> subst h1 <;> decide
    have hcond : (¬ isNumber vR = true ∨ ¬ isNumber vL = true) := by tauto
    unfold binaryOp
    rw [if_neg hne, if_pos hcond]
  · intro hno
    have hcond : ¬ (isNumber vR = true ∧ isNumber vL = true) := by tauto
    unfold binaryOp
    rw [if_pos rfl]
    rcases hR : heapStr h vR with _ | a
    · rcases hL : heapStr h vL with _ | b
      · simp only [hR, hL]
        rw [if_neg hcond]
        exact ⟨_, rfl⟩
      · simp only [hR, hL]
        rw [if_neg hcond]
        exact ⟨_, rfl⟩
    · rcases hL : heapStr h vL with _ | b
      · simp only [hR, hL]
        rw [if_neg hcond]
        exact ⟨_, rfl⟩
      · have hlen : b.chars.length ≠ 1 ∨ a.chars.length ≠ 1 := by
          by_contra hc
          push_neg at hc
          exact hno ⟨a, b, hR, hL, hc.2, hc.1⟩
        simp only [hR, hL]
        rw [if_pos hlen]
        exact ⟨_, rfl⟩
  · intro a b hR hL ha hb
    unfold binaryOp
    rw [if_pos rfl]
    simp only [hR, hL]
    rw [if_neg (by simp [ha, hb])]

/-- C3 witness: the amended theorem applied to the concrete non-number
operands nil / nil — MUL raises "Operands must be numbers." -/
theorem c3_witness :
    binaryOp [] '*' Value.nil Value.nil = StepRes.runtimeError "Operands must be numbers." :=
  (c3_theorem [] Value.nil Value.nil (by decide)).1 '*' (Or.inl rfl)

set_option maxRecDepth 4000 in
/-- C5 counterexample: the claim says the 256th constant emission raises
"Too many constants in one chunk.", but on a pool already holding 255
constants makeConstant accepts the 256th value at index 255 with no
error, and the pool then holds 256 constants. -/
theorem c5_counterexample :
    (makeConstant ⟨List.replicate 255 Value.nil⟩ Value.nil).2 = MakeConstantResult.ok 255 ∧
    (makeConstant ⟨List.replicate 255 Value.nil⟩ Value.nil).1.values.length = 256 := by
  constructor
  · unfold makeConstant addConstant
    simp
  · unfold makeConstant addConstant
    simp

/-- C5 (amended): makeConstant reports "Too many constants in one chunk."
exactly when the new pool index would exceed 255, i.e. exactly when the
chunk already holds at least 256 constants — the error first fires on the
257th emission, and the one-byte operand only ever addresses indices
0..255. -/
theorem c5_theorem (arr : ValueArray) (v : Value) :
    (makeConstant arr v).2 = MakeConstantResult.tooManyConstants ↔ 256 ≤ arr.values.length := by
  unfold makeConstant addConstant
  by_cases h : arr.values.length > 255
  · rw [if_pos h]
    simp
    omega
  · rw [if_neg h]
    simp
    omega

/-- C1: string interning fails for concatenation results.  After
interning the literal "hello" and then executing ADD on "he" and "llo"
(VM::concatenate, which calls takeString), the VM holds two live
equal-content "hello" strings that are distinct objects, both registered
in the intern table, and EQUAL (valuesEqual: pointer identity on objects)
yields false on them; takeString on already-interned content returns a
fresh object, while copyString on the same content returns the existing
one — because takeString, unlike copyString, never consults the intern
table. -/
theorem c1_theorem :
    (c1Cat.1.heap.lookup c1Cat.2).map ObjString.chars = some ['h', 'e', 'l', 'l', 'o'] ∧
    (c1Cat.1.heap.lookup c1Lit.2).map ObjString.chars = some ['h', 'e', 'l', 'l', 'o'] ∧
    c1Cat.2 ≠ c1Lit.2 ∧
    valuesEqualObj c1Cat.2 c1Lit.2 = false ∧
    c1Cat.2 ∈ c1Cat.1.strings ∧ c1Lit.2 ∈ c1Cat.1.strings ∧
    (takeString c1Lit.1 ['h', 'e', 'l', 'l', 'o']).2 ≠ c1Lit.2 ∧
    (copyString c1Lit.1 ['h', 'e', 'l', 'l', 'o']).2 = c1Lit.2 := by
  decide

/-- Updating the entry of key k leaves the lookup of k at the new payload,
provided k is bound at all. -/
theorem lookup_setAssoc_self {α : Type} (l : List (Nat × α)) (k : Nat) (a : α)
    (h : (l.lookup k).isSome = true) : (setAssoc l k a).lookup k = some a := by
  induction l with
  | nil => simp [List.lookup] at h
  | cons p t ih =>
    rcases p with ⟨pk, pa⟩
    by_cases hk : pk = k
    · subst hk
      simp [setAssoc, List.lookup_cons]
    · have hk2 : k ≠ pk := fun hc => hk hc.symm
      have hset : setAssoc ((pk, pa) :: t) k a = (pk, pa) :: setAssoc t k a := by
        simp [setAssoc, hk]
      simp only [List.lookup_cons, beq_false_of_ne hk2, if_false] at h
      rw [hset]
      simp only [List.lookup_cons, beq_false_of_ne hk2, if_false]
      exact ih h

/-- Updating the entry of key k leaves every other lookup unchanged. -/
theorem lookup_setAssoc_other {α : Type} (l : List (Nat × α)) (k : Nat) (a : α)
    (j : Nat) (hj : j ≠ k) : (setAssoc l k a).lookup j = l.lookup j := by
  induction l with
  | nil => simp [setAssoc]
  | cons p t ih =>
    rcases p with ⟨pk, pa⟩
    by_cases hk : pk = k
    · subst hk
      have hset : setAssoc ((pk, pa) :: t) pk a = (pk, a) :: setAssoc t pk a := by
        simp [setAssoc]
      rw [hset]
      simp only [List.lookup_cons, beq_false_of_ne hj, if_false]
      exact ih
    · have hset : setAssoc ((pk, pa) :: t) k a = (pk, pa) :: setAssoc t k a := by
        simp [setAssoc, hk]
      rw [hset]
      simp only [List.lookup_cons]
      cases hcmp : (j == pk)
      · simp only [if_false]
        exact ih
      · simp only [if_true]

/-- C9: confirmed — OP_INDEX_SET on a string object with a valid index and
a one-character string item writes the item byte into the character array
in place: the object keeps its identity (no allocation: nextId, intern
table, and every other heap binding are unchanged), its length, and its
stored hash, so every value aliasing the object id — including the
interned occurrence used by later literals — observes the new content. -/
theorem c9_theorem (vm : InternVM) (sId : Nat) (idx : Int) (itemId : Nat)
    (s item : ObjString)
    (hs : vm.heap.lookup sId = some s)
    (hitem : vm.heap.lookup itemId = some item)
    (hvalid : isValidStringIndex s idx = true)
    (hlen : item.chars.length = 1) :
    opIndexSet vm (.obj sId) (.number idx) (.obj itemId)
      = (storeToString vm sId idx.toNat itemId, .ok (.obj itemId)) ∧
    (storeToString vm sId idx.toNat itemId).heap.lookup sId
      = some ⟨s.chars.set idx.toNat (item.chars.headD (Char.ofNat 0)), s.hash⟩ ∧
    (∀ j, j ≠ sId →
      (storeToString vm sId idx.toNat itemId).heap.lookup j = vm.heap.lookup j) ∧
    (storeToString vm sId idx.toNat itemId).nextId = vm.nextId ∧
    (storeToString vm sId idx.toNat itemId).strings = vm.strings ∧
    ((storeToString vm sId idx.toNat itemId).heap.lookup sId).map
        (fun t => t.chars.length) = some s.chars.length ∧
    ((storeToString vm sId idx.toNat itemId).heap.lookup sId).map ObjString.hash
      = some s.hash := by
  have hnotfalse : ¬ (isValidStringIndex s idx = false) := by simp [hvalid]
  have hlen2 : ¬ (item.chars.length > 1) := by omega
  have hmain : (storeToString vm sId idx.toNat itemId).heap.lookup sId
      = some ⟨s.chars.set idx.toNat (item.chars.headD (Char.ofNat 0)), s.hash⟩ := by
    unfold storeToString
    rw [hs, hitem]
    exact lookup_setAssoc_self _ _ _ (by simp [hs])
  refine ⟨?_, hmain, ?_, ?_, ?_, ?_, ?_⟩
  · simp only [opIndexSet, hs, hitem]
    rw [if_neg hnotfalse, if_neg hlen2]
  · intro j hj
    unfold storeToString
    rw [hs, hitem]
    exact lookup_setAssoc_other _ _ _ _ hj
  · unfold storeToString
    rw [hs, hitem]
  · unfold storeToString
    rw [hs, hitem]
  · rw [hmain]
    simp
  · rw [hmain]
    rfl

/-- C9 witness: the theorem applied to the concrete VM holding "abc"
(object 0) and "z" (object 1), storing at index 1. -/
theorem c9_witness :
    opIndexSet c9VM (.obj 0) (.number 1) (.obj 1)
      = (storeToString c9VM 0 (Int.toNat 1) 1, .ok (.obj 1)) ∧
    (storeToString c9VM 0 (Int.toNat 1) 1).heap.lookup 0
      = some ⟨(['a', 'b', 'c'] : List Char).set (Int.toNat 1) ((['z'] : List Char).headD (Char.ofNat 0)), 7⟩ ∧
    (∀ j, j ≠ 0 →
      (storeToString c9VM 0 (Int.toNat 1) 1).heap.lookup j = c9VM.heap.lookup j) ∧
    (storeToString c9VM 0 (Int.toNat 1) 1).nextId = c9VM.nextId ∧
    (storeToString c9VM 0 (Int.toNat 1) 1).strings = c9VM.strings ∧
    ((storeToString c9VM 0 (Int.toNat 1) 1).heap.lookup 0).map
        (fun t => t.chars.length) = some (['a', 'b', 'c'] : List Char).length ∧
    ((storeToString c9VM 0 (Int.toNat 1) 1).heap.lookup 0).map ObjString.hash
      = some 7 :=
  c9_theorem c9VM 0 1 1 ⟨['a', 'b', 'c'], 7⟩ ⟨['z'], 9⟩ rfl rfl (by decide) rfl

/-- C7: the registered natives do not raise Lox runtime errors on bad
arguments — objLength, strInput, charInput and intInput call exit(0)
(terminating the host process), appendNative and deleteNative perform
unchecked accesses, and clockNative performs no check at all; the
NativeOutcome type of the embedding has no runtime-error constructor
because no such control path exists in the source. -/
theorem c7_theorem :
    objLength [] [] = NativeOutcome.hostExit 0 ∧
    objLength [] [Value.number 1, Value.number 2] = NativeOutcome.hostExit 0 ∧
    objLength [] [Value.number 1] = NativeOutcome.hostExit 0 ∧
    strInput [] [Value.number 5] = NativeOutcome.hostExit 0 ∧
    charInput [] [Value.number 5] = NativeOutcome.hostExit 0 ∧
    intInput [] [Value.number 5] = NativeOutcome.hostExit 0 ∧
    (appendNative [] [Value.nil]).2 = NativeOutcome.undefinedAccess ∧
    (deleteNative [] [Value.nil, Value.nil]).2 = NativeOutcome.undefinedAccess ∧
    clockNative [] [Value.nil] = NativeOutcome.fromHost := by
  decide

/-- C2: copyParent does not rebase the stack pointers.  First part: for
every parent and child, the child stackTop computed from
`diff = parent->stackTop - this->stack` equals the parent raw stackTop
address, and the copied frames keep the parent slot addresses verbatim.
Second part, at a concrete spawn (parent stack at addresses 0..16383 with
three live slots, child stack at 16384..32767): after copyParent the
child stackTop and the copied frame window lie inside the PARENT stack
array and outside the child array, so the child next push writes a
parent stack cell — writes in the child do propagate to the parent,
contradicting the claim. -/
theorem c2_theorem :
    (∀ child parent : MVM,
      (copyParent child parent).stackTopAddr = parent.stackTopAddr ∧
      (copyParent child parent).frames = parent.frames) ∧
    (let parent : MVM := ⟨0, [], 3, [⟨0⟩], 1⟩
     let child0 : MVM := ⟨16384, [], 16384, [], 0⟩
     inStackRegion parent (copyParent child0 parent).stackTopAddr ∧
     ¬ inStackRegion (copyParent child0 parent) (copyParent child0 parent).stackTopAddr ∧
     inStackRegion parent (pushTargetAddr (copyParent child0 parent)) ∧
     inStackRegion parent (((copyParent child0 parent).frames.getD 0 ⟨99999⟩).slotsAddr) ∧
     ¬ inStackRegion (copyParent child0 parent)
        (((copyParent child0 parent).frames.getD 0 ⟨99999⟩).slotsAddr)) := by
  constructor
  · intro child parent
    constructor
    · show child.stackBase + (parent.stackTopAddr - child.stackBase) = parent.stackTopAddr
      omega
    · rfl
  · decide

/-- C8: the finish/async machinery cannot reach OP_FINISH_END after a
spawn: OP_ASYNC_BEGIN registers the address of the block-scoped
std::thread local and then jumps out of that scope, so the process
terminates (std::terminate on destroying a joinable std::thread) at the
end of the first OP_ASYNC_BEGIN, and the handle the finish group holds
refers to a destroyed local.  Evaluated on a fresh VM executing
FINISH_BEGIN then ASYNC_BEGIN. -/
theorem c8_theorem :
    (opAsyncBegin (opFinishBegin c8VM0)).terminated = true ∧
    (opAsyncBegin (opFinishBegin c8VM0)).finishStack = [(1, 0)] ∧
    (opAsyncBegin (opFinishBegin c8VM0)).locals.lookup 0 = some HandleState.destroyed := by
  decide

/-- An inclusion-increasing endofunction on finsets of naturals that is
bounded by U reaches a fixed point within card U + 1 iterations. -/
theorem iterate_fix {f : Finset Nat → Finset Nat} {U s0 : Finset Nat}
    (hincl : ∀ s : Finset Nat, s ⊆ f s)
    (hbound : ∀ s : Finset Nat, s ⊆ U → f s ⊆ U)
    (hs0 : s0 ⊆ U) :
    f (f^[U.card + 1] s0) = f^[U.card + 1] s0 := by
  have hU : ∀ k, f^[k] s0 ⊆ U := by
    intro k
    induction k with
    | zero => simpa using hs0
    | succ n ih =>
      rw [Function.iterate_succ_apply']
      exact hbound _ ih
  have hexists : ∃ k, k ≤ U.card ∧ f (f^[k] s0) = f^[k] s0 := by
    by_contra hno
    push_neg at hno
    have hcard : ∀ k, k ≤ U.card + 1 → k ≤ (f^[k] s0).card := by
      intro k hk
      induction k with
      | zero => simp
      | succ n ih =>
        have hne : f (f^[n] s0) ≠ f^[n] s0 := hno n (by omega)
        have hss : f^[n] s0 ⊂ f (f^[n] s0) :=
          Finset.ssubset_iff_subset_ne.mpr ⟨hincl _, fun hc => hne hc.symm⟩
        have hcc := Finset.card_lt_card hss
        have hih := ih (by omega)
        rw [Function.iterate_succ_apply']
        omega
    have h1 := hcard (U.card + 1) (le_refl _)
    have h2 : (f^[U.card + 1] s0).card ≤ U.card := Finset.card_le_card (hU _)
    omega
  obtain ⟨k, hk, hfix⟩ := hexists
  have hd : ∀ d, f^[k + d] s0 = f^[k] s0 := by
    intro d
    induction d with
    | zero => rfl
    | succ n ih =>
      have he : k + (n + 1) = (k + n) + 1 := rfl
      rw [he, Function.iterate_succ_apply', ih, hfix]
  have hsplit : U.card + 1 = k + (U.card + 1 - k) := by omega
  rw [hsplit, hd, hfix]

/-- Iterating an inclusion-increasing function only grows the set. -/
theorem iterate_incl {f : Finset Nat → Finset Nat} (hincl : ∀ s : Finset Nat, s ⊆ f s)
    (s0 : Finset Nat) (k : Nat) : s0 ⊆ f^[k] s0 := by
  induction k with
  | zero => simp
  | succ n ih =>
    rw [Function.iterate_succ_apply']
    exact ih.trans (hincl _)

/-- The references of any object stay on the object list. -/
theorem refsOfId_subset (objs : List GCObj) (i : Nat) : refsOfId objs i ⊆ gcIds objs := by
  unfold refsOfId
  cases findObj objs i with
  | none => simp
  | some o =>
    intro x hx
    exact (Finset.mem_filter.mp hx).2

theorem markStep_incl (objs : List GCObj) (s : Finset Nat) : s ⊆ markStep objs s :=
  Finset.subset_union_left

theorem markStep_bound (objs : List GCObj) (s : Finset Nat) (hs : s ⊆ gcIds objs) :
    markStep objs s ⊆ gcIds objs := by
  intro x hx
  rcases Finset.mem_union.mp hx with h | h
  · exact hs h
  · rcases Finset.mem_biUnion.mp h with ⟨y, _, hxy⟩
    exact refsOfId_subset objs y hxy

theorem seedSet_subset (st : GCState) : seedSet st ⊆ gcIds st.objects := by
  intro x hx
  exact (Finset.mem_filter.mp hx).2

/-- The marked set is a fixed point of frontier expansion. -/
theorem reachable_fix (st : GCState) :
    markStep st.objects (reachableSet st) = reachableSet st :=
  iterate_fix (markStep_incl st.objects) (markStep_bound st.objects) (seedSet_subset st)

theorem seed_subset_reachable (st : GCState) : seedSet st ⊆ reachableSet st :=
  iterate_incl (markStep_incl st.objects) (seedSet st) _

/-- The marked set is closed under references. -/
theorem reachable_closed (st : GCState) {y x : Nat} (hy : y ∈ reachableSet st)
    (hx : x ∈ refsOfId st.objects y) : x ∈ reachableSet st := by
  have hmem : x ∈ markStep st.objects (reachableSet st) :=
    Finset.mem_union_right _ (Finset.mem_biUnion.mpr ⟨y, hy, hx⟩)
  rwa [reachable_fix] at hmem

theorem mem_gcIds {objs : List GCObj} {x : Nat} :
    x ∈ gcIds objs ↔ ∃ o ∈ objs, o.id = x := by
  unfold gcIds
  simp [List.mem_map]

/-- findObj through a map whose function preserves identities. -/
theorem findObj_map (l : List GCObj) (f : GCObj → GCObj) (hid : ∀ o, (f o).id = o.id)
    (i : Nat) : findObj (l.map f) i = (findObj l i).map f := by
  induction l with
  | nil => rfl
  | cons o t ih =>
    unfold findObj at *
    by_cases h : o.id = i
    · rw [List.map_cons, List.find?_cons_of_pos _ (by simp [hid, h]),
        List.find?_cons_of_pos _ (by simp [h])]
      rfl
    · rw [List.map_cons, List.find?_cons_of_neg _ (by simp [hid, h]),
        List.find?_cons_of_neg _ (by simp [h])]
      exact ih

/-- findObj through a filter whose predicate depends only on the identity
and holds at the probe identity. -/
theorem findObj_filter_prop (l : List GCObj) (p : Nat → Bool) (y : Nat) (hy : p y = true) :
    findObj (l.filter (fun o => p o.id)) y = findObj l y := by
  induction l with
  | nil => rfl
  | cons o t ih =>
    unfold findObj at *
    by_cases hoy : o.id = y
    · have hpo : p o.id = true := by rw [hoy]; exact hy
      rw [List.filter_cons_of_pos (by simp [hpo]),
        List.find?_cons_of_pos _ (by simp [hoy]),
        List.find?_cons_of_pos _ (by simp [hoy])]
    · cases hpo : p o.id
      · rw [List.filter_cons_of_neg (by simp [hpo]),
          List.find?_cons_of_neg _ (by simp [hoy])]
        exact ih
      · rw [List.filter_cons_of_pos (by simp [hpo]),
          List.find?_cons_of_neg _ (by simp [hoy]),
          List.find?_cons_of_neg _ (by simp [hoy])]
        exact ih

/-- Iterates never leave the downward closure of the fixed point. -/
theorem iterate_le_fix {f : Finset Nat → Finset Nat} (hincl : ∀ s : Finset Nat, s ⊆ f s)
    {s0 : Finset Nat} {N : Nat} (hfix : f (f^[N] s0) = f^[N] s0) (k : Nat) :
    f^[k] s0 ⊆ f^[N] s0 := by
  rcases le_or_lt k N with h | h
  · have mono : ∀ b, k ≤ b → f^[k] s0 ⊆ f^[b] s0 := by
      intro b hb
      induction b with
      | zero =>
        have : k = 0 := by omega
        subst this
        exact fun x hx => hx
      | succ m ihm =>
        rcases Nat.eq_or_lt_of_le hb with he | hlt
        · rw [he]
        · have := ihm (by omega)
          rw [Function.iterate_succ_apply']
          exact this.trans (hincl _)
    exact mono N h
  · have hstable : ∀ d, f^[N + d] s0 = f^[N] s0 := by
      intro d
      induction d with
      | zero => rfl
      | succ m ihm =>
        have he : N + (m + 1) = (N + m) + 1 := rfl
        rw [he, Function.iterate_succ_apply', ihm, hfix]
    have he : k = N + (k - N) := by omega
    rw [he, hstable]

/-- With every mark clear, collection keeps exactly the reachable objects
and resets the freshly set marks. -/
theorem gc_objects_eq (st : GCState) (hclear : ∀ o ∈ st.objects, o.marked = false) :
    (collectGarbage st).objects
      = (st.objects.filter (fun o => decide (o.id ∈ reachableSet st))).map
          (fun o => { o with marked := false }) := by
  have h1 : (collectGarbage st).objects
      = ((st.objects.map (fun o =>
            { o with marked := o.marked || decide (o.id ∈ reachableSet st) })).filter
          (fun o => o.marked)).map (fun o => { o with marked := false }) := rfl
  rw [h1, List.filter_map, List.map_map]
  have hfun : ((fun o : GCObj => { o with marked := false }) ∘
      (fun o : GCObj => { o with marked := o.marked || decide (o.id ∈ reachableSet st) }))
      = (fun o : GCObj => { o with marked := false }) := rfl
  rw [hfun]
  congr 1
  apply List.filter_congr
  intro o ho
  have : o.marked = false := hclear o ho
  simp [Function.comp, this]

/-- With every mark clear, the intern purge keeps exactly the keys of
reachable string objects. -/
theorem gc_internKeys_eq (st : GCState)
    (hclear : ∀ o ∈ st.objects, o.marked = false)
    (hkeys : ∀ k ∈ st.internKeys, ∃ o ∈ st.objects, o.id = k) :
    (collectGarbage st).internKeys
      = st.internKeys.filter (fun k => decide (k ∈ reachableSet st)) := by
  have h1 : (collectGarbage st).internKeys
      = st.internKeys.filter (fun k =>
          match findObj (markPhase st).objects k with
          | some o => o.marked
          | none => false) := rfl
  rw [h1]
  apply List.filter_congr
  intro k hk
  obtain ⟨o, homem, hoid⟩ := hkeys k hk
  have hfind : (findObj st.objects k).isSome := by
    apply List.find?_isSome.mpr
    exact ⟨o, homem, by simp [hoid]⟩
  obtain ⟨o0, ho0⟩ := Option.isSome_iff_exists.mp hfind
  have ho0mem : o0 ∈ st.objects := List.mem_of_find?_eq_some ho0
  have ho0id : o0.id = k := by
    have := List.find?_some ho0
    simpa using this
  have hm : findObj (markPhase st).objects k
      = some { o0 with marked := o0.marked || decide (o0.id ∈ reachableSet st) } := by
    have he : (markPhase st).objects = st.objects.map (fun o =>
        { o with marked := o.marked || decide (o.id ∈ reachableSet st) }) := rfl
    rw [he, findObj_map st.objects
      (fun o => { o with marked := o.marked || decide (o.id ∈ reachableSet st) })
      (fun o => rfl) k, ho0]
    rfl
  rw [hm]
  have hc : o0.marked = false := hclear o0 ho0mem
  simp [hc, ho0id]

/-- Reachability survives collection: whatever the traversal of the
original state marked and the sweep kept is reachable again in the
collected state. -/
theorem reach_transfer (st : GCState) (hclear : ∀ o ∈ st.objects, o.marked = false) :
    ∀ k x, x ∈ (markStep st.objects)^[k] (seedSet st) →
      x ∈ gcIds (collectGarbage st).objects → x ∈ reachableSet (collectGarbage st) := by
  intro k
  induction k with
  | zero =>
    intro x hx hx1
    have hroot : x ∈ (rootIds st).toFinset := (Finset.mem_filter.mp hx).1
    have hseed : x ∈ seedSet (collectGarbage st) := by
      apply Finset.mem_filter.mpr
      refine ⟨?_, by simpa using hx1⟩
      exact hroot
    exact seed_subset_reachable _ hseed
  | succ n ih =>
    intro x hx hx1
    rw [Function.iterate_succ_apply'] at hx
    rcases Finset.mem_union.mp hx with h | h
    · exact ih x h hx1
    · rcases Finset.mem_biUnion.mp h with ⟨y, hy, hxy⟩
      have hy2 : ∃ o, findObj st.objects y = some o ∧
          x ∈ (refsOf o.payload).toFinset ∧ x ∈ gcIds st.objects := by
        unfold refsOfId at hxy
        cases hfo : findObj st.objects y with
        | none => rw [hfo] at hxy; simp at hxy
        | some o =>
          rw [hfo] at hxy
          have hmf := Finset.mem_filter.mp hxy
          exact ⟨o, rfl, hmf.1, by simpa using hmf.2⟩
      obtain ⟨o, hfo, hxrefs, hxids⟩ := hy2
      have homem : o ∈ st.objects := List.mem_of_find?_eq_some hfo
      have hoid : o.id = y := by simpa using List.find?_some hfo
      have hyreach : y ∈ reachableSet st :=
        iterate_le_fix (markStep_incl st.objects) (reachable_fix st) n hy
      have hy1 : y ∈ gcIds (collectGarbage st).objects := by
        rw [gc_objects_eq st hclear]
        apply mem_gcIds.mpr
        refine ⟨{ o with marked := false }, ?_, hoid⟩
        exact List.mem_map.mpr
          ⟨o, List.mem_filter.mpr ⟨homem, by simp [hoid, hyreach]⟩, rfl⟩
      have hyR : y ∈ reachableSet (collectGarbage st) := ih y hy hy1
      have hfo1 : findObj (collectGarbage st).objects y
          = some { o with marked := false } := by
        rw [gc_objects_eq st hclear, findObj_map _
          (fun o => { o with marked := false }) (fun o => rfl) y,
          findObj_filter_prop st.objects (fun j => decide (j ∈ reachableSet st)) y
            (by simp [hyreach]),
          hfo]
        rfl
      have hxrefs1 : x ∈ refsOfId (collectGarbage st).objects y := by
        unfold refsOfId
        rw [hfo1]
        exact Finset.mem_filter.mpr ⟨hxrefs, hx1⟩
      exact reachable_closed _ hyR hxrefs1

/-- C4: confirmed — collectGarbage purges the intern table of exactly the
keys of unmarked (unreachable) strings using the pre-sweep marks (the
purge is composed before sweep, so every key is still resolvable when
tested, and afterwards every surviving key names a surviving object: no
dangling keys); after the sweep the surviving object list is exactly the
objects that were marked — a root or reachable from one — at the moment
marking and tracing completed, each with its mark flag reset.  Stated for
the states collectGarbage runs on: every mark clear at entry (allocation
clears marks, sweep re-clears survivors) and every intern key a live
object. -/
theorem c4_theorem (st : GCState)
    (hclear : ∀ o ∈ st.objects, o.marked = false)
    (hkeys : ∀ k ∈ st.internKeys, ∃ o ∈ st.objects, o.id = k) :
    (collectGarbage st).internKeys
        = st.internKeys.filter (fun k => decide (k ∈ reachableSet st)) ∧
    (collectGarbage st).objects
        = (st.objects.filter (fun o => decide (o.id ∈ reachableSet st))).map
            (fun o => { o with marked := false }) ∧
    (∀ o ∈ (collectGarbage st).objects, o.marked = false ∧ o.id ∈ reachableSet st) ∧
    (∀ k ∈ (collectGarbage st).internKeys,
        k ∈ reachableSet st ∧ ∃ o ∈ (collectGarbage st).objects, o.id = k) := by
  refine ⟨gc_internKeys_eq st hclear hkeys, gc_objects_eq st hclear, ?_, ?_⟩
  · intro o ho
    rw [gc_objects_eq st hclear] at ho
    obtain ⟨o0, ho0, rfl⟩ := List.mem_map.mp ho
    have hfilt := List.mem_filter.mp ho0
    exact ⟨rfl, by simpa using of_decide_eq_true hfilt.2⟩
  · intro k hk
    rw [gc_internKeys_eq st hclear hkeys] at hk
    have hfilt := List.mem_filter.mp hk
    have hreach : k ∈ reachableSet st := of_decide_eq_true hfilt.2
    refine ⟨hreach, ?_⟩
    obtain ⟨o, homem, hoid⟩ := hkeys k hfilt.1
    refine ⟨{ o with marked := false }, ?_, hoid⟩
    rw [gc_objects_eq st hclear]
    exact List.mem_map.mpr
      ⟨o, List.mem_filter.mpr ⟨homem, by simp [hoid, hreach]⟩, rfl⟩

/-- C4 witness: the theorem applied to the concrete three-object state
(an unreachable interned string, a rooted list, and an interned string
reachable through the list). -/
theorem c4_witness :
    (collectGarbage gcWitnessState).internKeys
        = gcWitnessState.internKeys.filter
            (fun k => decide (k ∈ reachableSet gcWitnessState)) ∧
    (collectGarbage gcWitnessState).objects
        = (gcWitnessState.objects.filter
            (fun o => decide (o.id ∈ reachableSet gcWitnessState))).map
            (fun o => { o with marked := false }) ∧
    (∀ o ∈ (collectGarbage gcWitnessState).objects,
        o.marked = false ∧ o.id ∈ reachableSet gcWitnessState) ∧
    (∀ k ∈ (collectGarbage gcWitnessState).internKeys,
        k ∈ reachableSet gcWitnessState ∧
        ∃ o ∈ (collectGarbage gcWitnessState).objects, o.id = k) :=
  c4_theorem gcWitnessState (by decide) (by decide)

/-- C6: confirmed — two consecutive collectGarbage calls with no
intervening allocations leave bytesAllocated unchanged by the second
call: the first collection keeps exactly the reachable objects, those
remain reachable from the unchanged roots, so the second sweep frees
nothing.  Stated for the states collectGarbage runs on (every mark clear
at entry). -/
theorem c6_theorem (st : GCState)
    (hclear : ∀ o ∈ st.objects, o.marked = false) :
    (collectGarbage (collectGarbage st)).bytesAllocated
      = (collectGarbage st).bytesAllocated := by
  have hclear1 : ∀ o ∈ (collectGarbage st).objects, o.marked = false := by
    intro o ho
    rw [gc_objects_eq st hclear] at ho
    obtain ⟨o0, _, rfl⟩ := List.mem_map.mp ho
    rfl
  have hsub : ∀ o ∈ (collectGarbage st).objects,
      o.id ∈ reachableSet (collectGarbage st) := by
    intro o ho
    have hids : o.id ∈ gcIds (collectGarbage st).objects := mem_gcIds.mpr ⟨o, ho, rfl⟩
    have ho2 := ho
    rw [gc_objects_eq st hclear] at ho2
    obtain ⟨o0, ho0, hre⟩ := List.mem_map.mp ho2
    have hfilt := List.mem_filter.mp ho0
    have hreach : o0.id ∈ reachableSet st := by simpa using of_decide_eq_true hfilt.2
    have hid : o.id = o0.id := by rw [← hre]
    rw [hid] at hids ⊢
    exact reach_transfer st hclear ((gcIds st.objects).card + 1) o0.id hreach hids
  have hmarked : ∀ o2 ∈ (markPhase (collectGarbage st)).objects, (!o2.marked) = false := by
    intro o2 ho2
    obtain ⟨o1, ho1, rfl⟩ := List.mem_map.mp ho2
    have h1 : o1.marked = false := hclear1 o1 ho1
    have h2 : o1.id ∈ reachableSet (collectGarbage st) := hsub o1 ho1
    simp [h1, h2]
  have hfilter : (markPhase (collectGarbage st)).objects.filter (fun o => !o.marked)
      = [] := by
    apply List.filter_eq_nil_iff.mpr
    intro a ha
    simp [hmarked a ha]
  have hbytes : (collectGarbage (collectGarbage st)).bytesAllocated
      = (collectGarbage st).bytesAllocated
        - (((markPhase (collectGarbage st)).objects.filter
            (fun o => !o.marked)).map GCObj.size).sum := rfl
  rw [hbytes, hfilter]
  simp

/-- C6 witness: the theorem applied to the concrete three-object state;
the first collection frees the unreachable string, the second frees
nothing. -/
theorem c6_witness :
    (collectGarbage (collectGarbage gcWitnessState)).bytesAllocated
      = (collectGarbage gcWitnessState).bytesAllocated :=
  c6_theorem gcWitnessState (by decide)

/-- getD of an in-range index is a member. -/
theorem getD_mem {α : Type} : ∀ (l : List α) (j : Nat), j < l.length → ∀ d, l.getD j d ∈ l := by
  intro l
  induction l with
  | nil => intro j hj; simp at hj
  | cons a t ih =>
    intro j hj d
    cases j with
    | zero => exact List.mem_cons_self a t
    | succ n =>
      have := ih n (by simpa using hj) d
      exact List.mem_cons_of_mem a this

/-- getD at the written index. -/
theorem getD_set_self {α : Type} :
    ∀ (l : List α) (i : Nat), i < l.length → ∀ (a d : α), (l.set i a).getD i d = a := by
  intro l
  induction l with
  | nil => intro i hi; simp at hi
  | cons x t ih =>
    intro i hi a d
    cases i with
    | zero => rfl
    | succ n => exact ih n (by simpa using hi) a d

/-- getD away from the written index. -/
theorem getD_set_ne {α : Type} :
    ∀ (l : List α) (i j : Nat), i ≠ j → ∀ (a d : α), (l.set i a).getD j d = l.getD j d := by
  intro l
  induction l with
  | nil => intro i j _ a d; simp
  | cons x t ih =>
    intro i j hij a d
    cases i with
    | zero =>
      cases j with
      | zero => exact absurd rfl hij
      | succ m => rfl
    | succ n =>
      cases j with
      | zero => rfl
      | succ m => exact ih n m (by omega) a d

/-- countP through a single-slot write. -/
theorem countP_set {α : Type} (p : α → Bool) :
    ∀ (l : List α) (i : Nat), i < l.length → ∀ (a d : α),
      (l.set i a).countP p + (if p (l.getD i d) then 1 else 0)
        = l.countP p + (if p a then 1 else 0) := by
  intro l
  induction l with
  | nil => intro i hi; simp at hi
  | cons x t ih =>
    intro i hi a d
    cases i with
    | zero =>
      simp only [List.set, List.countP_cons, List.getD_cons_zero]
      omega
    | succ n =>
      have hn : n < t.length := by simpa using hi
      have hrec := ih n hn a d
      simp only [List.set, List.countP_cons, List.getD_cons_succ]
      omega

/-- A positive empty count yields an index holding an empty slot. -/
theorem exists_empty_index :
    ∀ (entries : List TEntry), 0 < emptyCount entries →
      ∃ j, j < entries.length ∧ isEmptySlot (entries.getD j emptyEntry) = true := by
  intro entries
  induction entries with
  | nil => intro h; simp [emptyCount] at h
  | cons e t ih =>
    intro h
    cases he : isEmptySlot e
    · have ht : 0 < emptyCount t := by
        unfold emptyCount at h ⊢
        rw [List.countP_cons, he] at h
        simpa using h
      obtain ⟨j, hj, hjs⟩ := ih ht
      exact ⟨j + 1, by simpa using hj, hjs⟩
    · exact ⟨0, by simp, he⟩

/-- The linear probe starting below cap reaches any slot below cap within
cap steps. -/
theorem probe_reaches (cap idx0 j : Nat) (h0 : idx0 < cap) (hj : j < cap) :
    ∃ i, i < cap ∧ (idx0 + i) % cap = j := by
  by_cases hle : idx0 ≤ j
  · refine ⟨j - idx0, by omega, ?_⟩
    have he : idx0 + (j - idx0) = j := by omega
    rw [he, Nat.mod_eq_of_lt hj]
  · refine ⟨j + cap - idx0, by omega, ?_⟩
    have he : idx0 + (j + cap - idx0) = j + cap := by omega
    rw [he, Nat.add_mod_right, Nat.mod_eq_of_lt hj]

/-- Probe positions below cap are pairwise distinct. -/
theorem probe_inj {cap idx0 i j : Nat} (h0 : idx0 < cap) (hi : i < cap) (hj : j < cap)
    (h : (idx0 + i) % cap = (idx0 + j) % cap) : i = j := by
  have ei : (idx0 + i) % cap = if idx0 + i < cap then idx0 + i else idx0 + i - cap := by
    split
    · exact Nat.mod_eq_of_lt (by assumption)
    · rw [Nat.mod_eq_sub_mod (by omega)]
      exact Nat.mod_eq_of_lt (by omega)
  have ej : (idx0 + j) % cap = if idx0 + j < cap then idx0 + j else idx0 + j - cap := by
    split
    · exact Nat.mod_eq_of_lt (by assumption)
    · rw [Nat.mod_eq_sub_mod (by omega)]
      exact Nat.mod_eq_of_lt (by omega)
  rw [ei, ej] at h
  split at h <;> split at h <;> omega

/-- The probe scan terminates with a result once an empty slot lies
within the remaining fuel. -/
theorem findEntryAux_total (entries : List TEntry) (cap : Nat) (k : StrKey) :
    ∀ fuel idx tomb, idx < cap →
      (∃ i, i < fuel ∧ isEmptySlot (entries.getD ((idx + i) % cap) emptyEntry) = true) →
      (findEntryAux entries cap k idx tomb fuel).isSome = true := by
  intro fuel
  induction fuel with
  | zero =>
    intro idx tomb _ h
    obtain ⟨i, hi, _⟩ := h
    omega
  | succ f ih =>
    intro idx tomb hidx h
    have hcap : 0 < cap := by omega
    have hidx0 : (idx + 0) % cap = idx := by rw [Nat.add_zero, Nat.mod_eq_of_lt hidx]
    unfold findEntryAux
    by_cases hk : (entries.getD idx emptyEntry).key = none
    · by_cases hv : (entries.getD idx emptyEntry).value = Value.nil
      · rw [if_pos hk, if_pos hv]
        rfl
      · rw [if_pos hk, if_neg hv]
        apply ih _ _ (Nat.mod_lt _ hcap)
        obtain ⟨i, hi, hslot⟩ := h
        have hine : i ≠ 0 := by
          intro h0
          subst h0
          rw [hidx0] at hslot
          rw [isEmptySlot, decide_eq_true_iff] at hslot
          exact hv hslot.2
        refine ⟨i - 1, by omega, ?_⟩
        rw [Nat.mod_add_mod]
        have harg : idx + 1 + (i - 1) = idx + i := by omega
        rw [harg]
        exact hslot
    · by_cases hk2 : (entries.getD idx emptyEntry).key = some k
      · rw [if_neg hk, if_pos hk2]
        rfl
      · rw [if_neg hk, if_neg hk2]
        apply ih _ _ (Nat.mod_lt _ hcap)
        obtain ⟨i, hi, hslot⟩ := h
        have hine : i ≠ 0 := by
          intro h0
          subst h0
          rw [hidx0] at hslot
          rw [isEmptySlot, decide_eq_true_iff] at hslot
          exact hk hslot.1
        refine ⟨i - 1, by omega, ?_⟩
        rw [Nat.mod_add_mod]
        have harg : idx + 1 + (i - 1) = idx + i := by omega
        rw [harg]
        exact hslot

/-- When the key sits n probe steps from the scan position behind a
prefix of other-key slots, the scan stops exactly on it. -/
theorem findEntryAux_hit (entries : List TEntry) (cap : Nat) (k : StrKey) :
    ∀ n fuel idx tomb, n < fuel → idx < cap →
      (∀ i, i < n → occupiedOther entries k ((idx + i) % cap)) →
      (entries.getD ((idx + n) % cap) emptyEntry).key = some k →
      findEntryAux entries cap k idx tomb fuel = some ((idx + n) % cap) := by
  intro n
  induction n with
  | zero =>
    intro fuel idx tomb hn hidx _ hkey
    have hidx0 : (idx + 0) % cap = idx := by rw [Nat.add_zero, Nat.mod_eq_of_lt hidx]
    rw [hidx0] at hkey ⊢
    cases fuel with
    | zero => omega
    | succ f =>
      unfold findEntryAux
      rw [if_neg (by intro hc; rw [hkey] at hc; cases hc), if_pos hkey]
  | succ m ih =>
    intro fuel idx tomb hn hidx hocc hkey
    have hcap : 0 < cap := by omega
    cases fuel with
    | zero => omega
    | succ f =>
      obtain ⟨k2, hk2, hk2ne⟩ := hocc 0 (by omega)
      have hidx0 : (idx + 0) % cap = idx := by rw [Nat.add_zero, Nat.mod_eq_of_lt hidx]
      rw [hidx0] at hk2
      have hshift : ∀ j : Nat, ((idx + 1) % cap + j) % cap = (idx + (j + 1)) % cap := by
        intro j
        rw [Nat.mod_add_mod]
        congr 1
        omega
      unfold findEntryAux
      rw [if_neg (by intro hc; rw [hk2] at hc; cases hc),
        if_neg (by intro hc; rw [hk2] at hc; exact hk2ne (Option.some.inj hc))]
      have hocc2 : ∀ i, i < m → occupiedOther entries k (((idx + 1) % cap + i) % cap) := by
        intro i hi
        rw [hshift i]
        exact hocc (i + 1) (by omega)
      have hkey2 : (entries.getD (((idx + 1) % cap + m) % cap) emptyEntry).key = some k := by
        rw [hshift m]
        exact hkey
      have hr := ih f ((idx + 1) % cap) tomb (by omega) (Nat.mod_lt _ hcap) hocc2 hkey2
      rw [hshift m] at hr
      exact hr

/-- Scan characterization on a key-free array: the scan stops on a
NULL-key slot whose probe prefix consists of other-key slots. -/
theorem findEntryAux_char (entries : List TEntry) (cap : Nat) (k : StrKey)
    (habs : ∀ e ∈ entries, e.key ≠ some k) (hlen : entries.length = cap) :
    ∀ fuel m tomb idx0, idx0 < cap →
      (∃ i, i < fuel ∧
        isEmptySlot (entries.getD ((idx0 + (m + i)) % cap) emptyEntry) = true) →
      (tomb = none → ∀ i, i < m → occupiedOther entries k ((idx0 + i) % cap)) →
      (∀ t, tomb = some t → ∃ nt, nt ≤ m ∧ t = (idx0 + nt) % cap ∧
        (entries.getD t emptyEntry).key = none ∧
        ∀ i, i < nt → occupiedOther entries k ((idx0 + i) % cap)) →
      ∃ n, n < m + fuel ∧
        findEntryAux entries cap k ((idx0 + m) % cap) tomb fuel
          = some ((idx0 + n) % cap) ∧
        (entries.getD ((idx0 + n) % cap) emptyEntry).key = none ∧
        ∀ i, i < n → occupiedOther entries k ((idx0 + i) % cap) := by
  intro fuel
  induction fuel with
  | zero =>
    intro m tomb idx0 _ h _ _
    obtain ⟨i, hi, _⟩ := h
    omega
  | succ f ih =>
    intro m tomb idx0 hidx0 hemp htombn htombs
    have hcap : 0 < cap := by omega
    have hcurlt : (idx0 + m) % cap < cap := Nat.mod_lt _ hcap
    have hnext : ((idx0 + m) % cap + 1) % cap = (idx0 + (m + 1)) % cap := by
      rw [Nat.mod_add_mod]
      have harg : idx0 + m + 1 = idx0 + (m + 1) := by omega
      rw [harg]
    have hzero : idx0 + (m + 0) = idx0 + m := by omega
    unfold findEntryAux
    by_cases hk : (entries.getD ((idx0 + m) % cap) emptyEntry).key = none
    · by_cases hv : (entries.getD ((idx0 + m) % cap) emptyEntry).value = Value.nil
      · rw [if_pos hk, if_pos hv]
        cases htomb : tomb with
        | none =>
          refine ⟨m, by omega, ?_, hk, htombn htomb⟩
          rfl
        | some t =>
          obtain ⟨nt, hnt, ht, htk, hto⟩ := htombs t htomb
          refine ⟨nt, by omega, ?_, by rw [← ht]; exact htk, hto⟩
          simp [ht]
      · rw [if_pos hk, if_neg hv]
        have hemp2 : ∃ i, i < f ∧
            isEmptySlot (entries.getD ((idx0 + ((m + 1) + i)) % cap) emptyEntry) = true := by
          obtain ⟨i, hi, hslot⟩ := hemp
          have hine : i ≠ 0 := by
            intro h0
            subst h0
            rw [hzero] at hslot
            rw [isEmptySlot, decide_eq_true_iff] at hslot
            exact hv hslot.2
          refine ⟨i - 1, by omega, ?_⟩
          have harg : m + 1 + (i - 1) = m + i := by omega
          rw [harg]
          exact hslot
        have htn2 : tomb.or (some ((idx0 + m) % cap)) = none →
            ∀ i, i < m + 1 → occupiedOther entries k ((idx0 + i) % cap) := by
          intro hc
          cases tomb <;> simp at hc
        have hts2 : ∀ t, tomb.or (some ((idx0 + m) % cap)) = some t →
            ∃ nt, nt ≤ m + 1 ∧ t = (idx0 + nt) % cap ∧
              (entries.getD t emptyEntry).key = none ∧
              ∀ i, i < nt → occupiedOther entries k ((idx0 + i) % cap) := by
          intro t ht
          cases htc : tomb with
          | none =>
            rw [htc, Option.none_or] at ht
            have heq := Option.some.inj ht
            exact ⟨m, by omega, heq.symm, by rw [← heq]; exact hk, htombn htc⟩
          | some t0 =>
            rw [htc, Option.or_some] at ht
            have heq := Option.some.inj ht
            obtain ⟨nt, hnt, ht0, htk, hto⟩ := htombs t0 htc
            exact ⟨nt, by omega, by rw [← heq]; exact ht0, by rw [← heq]; exact htk, hto⟩
        obtain ⟨n, hnb, hfe, hnk, hno⟩ :=
          ih (m + 1) (tomb.or (some ((idx0 + m) % cap))) idx0 hidx0 hemp2 htn2 hts2
        refine ⟨n, by omega, ?_, hnk, hno⟩
        rw [hnext]
        exact hfe
    · have hsome : ∃ k2, (entries.getD ((idx0 + m) % cap) emptyEntry).key = some k2 := by
        cases hck : (entries.getD ((idx0 + m) % cap) emptyEntry).key with
        | none => exact absurd hck hk
        | some k2 => exact ⟨k2, rfl⟩
      obtain ⟨k2, hk2⟩ := hsome
      have hk2ne : k2 ≠ k := by
        intro hceq
        subst hceq
        have hmem : entries.getD ((idx0 + m) % cap) emptyEntry ∈ entries := by
          apply getD_mem
          rw [hlen]
          exact hcurlt
        exact habs _ hmem hk2
      rw [if_neg (by intro hc; rw [hk2] at hc; cases hc),
        if_neg (by intro hc; rw [hk2] at hc; exact hk2ne (Option.some.inj hc))]
      have hemp2 : ∃ i, i < f ∧
          isEmptySlot (entries.getD ((idx0 + ((m + 1) + i)) % cap) emptyEntry) = true := by
        obtain ⟨i, hi, hslot⟩ := hemp
        have hine : i ≠ 0 := by
          intro h0
          subst h0
          rw [hzero] at hslot
          rw [isEmptySlot, decide_eq_true_iff] at hslot
          rw [hslot.1] at hk2
          cases hk2
        refine ⟨i - 1, by omega, ?_⟩
        have harg : m + 1 + (i - 1) = m + i := by omega
        rw [harg]
        exact hslot
      have htn2 : tomb = none → ∀ i, i < m + 1 → occupiedOther entries k ((idx0 + i) % cap) := by
        intro hc i hi
        rcases Nat.lt_or_ge i m with him | him
        · exact htombn hc i him
        · have : i = m := by omega
          subst this
          exact ⟨k2, hk2, hk2ne⟩
      have hts2 : ∀ t, tomb = some t →
          ∃ nt, nt ≤ m + 1 ∧ t = (idx0 + nt) % cap ∧
            (entries.getD t emptyEntry).key = none ∧
            ∀ i, i < nt → occupiedOther entries k ((idx0 + i) % cap) := by
        intro t ht
        obtain ⟨nt, hnt, ht0, htk, hto⟩ := htombs t ht
        exact ⟨nt, by omega, ht0, htk, hto⟩
      obtain ⟨n, hnb, hfe, hnk, hno⟩ := ih (m + 1) tomb idx0 hidx0 hemp2 htn2 hts2
      refine ⟨n, by omega, ?_, hnk, hno⟩
      rw [hnext]
      exact hfe

/-- findEntry on a key-free array with at least one empty slot: the
result is a NULL-key slot n probe steps from hash % capacity with every
earlier probe slot occupied by another key, and n < capacity. -/
theorem findEntry_char (entries : List TEntry) (cap : Nat) (k : StrKey)
    (habs : ∀ e ∈ entries, e.key ≠ some k) (hlen : entries.length = cap)
    (hcap : 0 < cap) (hemp : 0 < emptyCount entries) :
    ∃ n, n < cap ∧
      findEntry entries cap k = some ((k.hash % cap + n) % cap) ∧
      (entries.getD ((k.hash % cap + n) % cap) emptyEntry).key = none ∧
      ∀ i, i < n → occupiedOther entries k ((k.hash % cap + i) % cap) := by
  obtain ⟨j, hj, hjs⟩ := exists_empty_index entries hemp
  have hj2 : j < cap := by rwa [hlen] at hj
  have hidx0 : k.hash % cap < cap := Nat.mod_lt _ hcap
  obtain ⟨i0, hi0, hreach⟩ := probe_reaches cap (k.hash % cap) j hidx0 hj2
  have hemp2 : ∃ i, i < cap ∧
      isEmptySlot (entries.getD ((k.hash % cap + (0 + i)) % cap) emptyEntry) = true := by
    refine ⟨i0, hi0, ?_⟩
    rw [Nat.zero_add, hreach]
    exact hjs
  obtain ⟨n, hnb, hfe, hnk, hno⟩ := findEntryAux_char entries cap k habs hlen cap 0 none
    (k.hash % cap) hidx0 hemp2 (fun _ i hi => absurd hi (Nat.not_lt_zero i))
    (fun t ht => by cases ht)
  have hzero : (k.hash % cap + 0) % cap = k.hash % cap := by
    rw [Nat.add_zero, Nat.mod_eq_of_lt hidx0]
  rw [hzero] at hfe
  exact ⟨n, by omega, hfe, hnk, hno⟩

/-- The scan result lies below capacity. -/
theorem findEntryAux_lt (entries : List TEntry) (cap : Nat) (k : StrKey) :
    ∀ fuel idx tomb r, idx < cap → (∀ t, tomb = some t → t < cap) →
      findEntryAux entries cap k idx tomb fuel = some r → r < cap := by
  intro fuel
  induction fuel with
  | zero => intro idx tomb r _ _ h; cases h
  | succ f ih =>
    intro idx tomb r hidx htomb h
    have hcap : 0 < cap := by omega
    unfold findEntryAux at h
    by_cases hk : (entries.getD idx emptyEntry).key = none
    · by_cases hv : (entries.getD idx emptyEntry).value = Value.nil
      · rw [if_pos hk, if_pos hv] at h
        have hr := Option.some.inj h
        cases htc : tomb with
        | none =>
          rw [htc] at hr
          simp at hr
          omega
        | some t =>
          rw [htc] at hr
          simp at hr
          have := htomb t htc
          omega
      · rw [if_pos hk, if_neg hv] at h
        apply ih _ _ _ (Nat.mod_lt _ hcap) ?_ h
        intro t ht
        cases htc : tomb with
        | none =>
          rw [htc, Option.none_or] at ht
          have := Option.some.inj ht
          omega
        | some t0 =>
          rw [htc, Option.or_some] at ht
          have := Option.some.inj ht
          have h2 := htomb t0 htc
          omega
    · by_cases hk2 : (entries.getD idx emptyEntry).key = some k
      · rw [if_neg hk, if_pos hk2] at h
        have := Option.some.inj h
        omega
      · rw [if_neg hk, if_neg hk2] at h
        exact ih _ _ _ (Nat.mod_lt _ hcap) htomb h

/-- The fresh reinsertion array is all empty slots. -/
theorem emptyCount_replicate (cap : Nat) :
    emptyCount (List.replicate cap emptyEntry) = cap := by
  induction cap with
  | zero => rfl
  | succ n ih =>
    rw [List.replicate_succ]
    unfold emptyCount at *
    rw [List.countP_cons, ih]
    have he : isEmptySlot emptyEntry = true := rfl
    simp [he]

/-- Splitting the slots of an array into empty and non-empty. -/
theorem emptyCount_add_fullCount (entries : List TEntry) :
    emptyCount entries + fullCount entries = entries.length := by
  induction entries with
  | nil => rfl
  | cons e t ih =>
    unfold emptyCount fullCount at *
    rw [List.countP_cons, List.countP_cons]
    cases he : isEmptySlot e <;> simp [he] <;> omega

/-- Writing a key-free entry keeps the array key-free. -/
theorem absent_set (l : List TEntry) (i : Nat) (ne : TEntry) (name : StrKey)
    (habs : ∀ e ∈ l, e.key ≠ some name) (hnew : ne.key ≠ some name) :
    ∀ e ∈ l.set i ne, e.key ≠ some name := by
  intro e he
  rcases List.mem_or_eq_of_mem_set he with h | h
  · exact habs e h
  · rw [h]
    exact hnew

/-- The adjustCapacity reinsertion fold: on an array with strictly more
empty slots than keyed entries left to reinsert, the fold succeeds, keeps
the array length and name-freeness, and consumes at most one empty slot
per reinserted key. -/
theorem adjust_fold_spec (cap : Nat) (name : StrKey) (hcap : 0 < cap) :
    ∀ (olds : List TEntry) (es : List TEntry) (cnt : Nat),
      es.length = cap →
      (∀ e ∈ es, e.key ≠ some name) →
      (∀ e ∈ olds, e.key ≠ some name) →
      olds.countP (fun e => decide (e.key ≠ none)) < emptyCount es →
      ∃ es2 cnt2,
        olds.foldl (reinsert cap) (some (es, cnt)) = some (es2, cnt2) ∧
        es2.length = cap ∧ (∀ e ∈ es2, e.key ≠ some name) ∧
        emptyCount es ≤ emptyCount es2 + olds.countP (fun e => decide (e.key ≠ none)) := by
  intro olds
  induction olds with
  | nil =>
    intro es cnt hlen habs _ _
    exact ⟨es, cnt, rfl, hlen, habs, by simp⟩
  | cons e rest ih =>
    intro es cnt hlen habs holds hroom
    have hcount := List.countP_cons (p := fun e : TEntry => decide (e.key ≠ none)) e rest
    by_cases hek : e.key = none
    · have hone : reinsert cap (some (es, cnt)) e = some (es, cnt) := by
        simp [reinsert, hek]
      have hpred : (decide (e.key ≠ none)) = false := by simp [hek]
      have hcrest : (e :: rest).countP (fun e => decide (e.key ≠ none))
          = rest.countP (fun e => decide (e.key ≠ none)) := by
        rw [hcount, hpred]
        rfl
      have hroom2 : rest.countP (fun e => decide (e.key ≠ none)) < emptyCount es := by
        omega
      obtain ⟨es2, cnt2, hfold, hlen2, habs2, hbound⟩ :=
        ih es cnt hlen habs (fun x hx => holds x (List.mem_cons_of_mem e hx)) hroom2
      refine ⟨es2, cnt2, ?_, hlen2, habs2, by omega⟩
      rw [List.foldl_cons, hone]
      exact hfold
    · obtain ⟨k2, hk2⟩ : ∃ k2, e.key = some k2 := by
        cases hc : e.key with
        | none => exact absurd hc hek
        | some k2 => exact ⟨k2, rfl⟩
      have hemp : 0 < emptyCount es := by omega
      obtain ⟨j, hj, hjs⟩ := exists_empty_index es hemp
      have hj2 : j < cap := by rwa [hlen] at hj
      have hhash : k2.hash % cap < cap := Nat.mod_lt _ hcap
      obtain ⟨i0, hi0, hreach⟩ := probe_reaches cap (k2.hash % cap) j hhash hj2
      have htot : (findEntry es cap k2).isSome = true := by
        apply findEntryAux_total es cap k2 cap (k2.hash % cap) none hhash
        exact ⟨i0, hi0, by rw [hreach]; exact hjs⟩
      obtain ⟨r, hr⟩ := Option.isSome_iff_exists.mp htot
      have hrlt : r < cap :=
        findEntryAux_lt es cap k2 cap (k2.hash % cap) none r hhash
          (fun t ht => by cases ht) hr
      have hone : reinsert cap (some (es, cnt)) e
          = some (es.set r ⟨some k2, e.value⟩, cnt + 1) := by
        simp [reinsert, hk2, hr]
      have hk2ne : (⟨some k2, e.value⟩ : TEntry).key ≠ some name := by
        have := holds e (List.mem_cons_self e rest)
        rw [hk2] at this
        exact this
      have hlen1 : (es.set r ⟨some k2, e.value⟩).length = cap := by
        rw [List.length_set]
        exact hlen
      have habs1 := absent_set es r ⟨some k2, e.value⟩ name habs hk2ne
      have hcp := countP_set (fun e => isEmptySlot e) es r (by rw [hlen]; exact hrlt)
        ⟨some k2, e.value⟩ emptyEntry
      have hnewE : isEmptySlot (⟨some k2, e.value⟩ : TEntry) = false := by
        simp [isEmptySlot]
      rw [hnewE] at hcp
      rw [show (if (false : Bool) = true then 1 else 0) = 0 from rfl] at hcp
      have hbound1 : emptyCount es ≤ emptyCount (es.set r ⟨some k2, e.value⟩) + 1 := by
        unfold emptyCount
        by_cases hre : isEmptySlot (es.getD r emptyEntry) = true
        · rw [if_pos hre] at hcp
          omega
        · rw [if_neg hre] at hcp
          omega
      have hpred : (decide (e.key ≠ none)) = true := by simp [hek]
      have hcrest : (e :: rest).countP (fun e => decide (e.key ≠ none))
          = rest.countP (fun e => decide (e.key ≠ none)) + 1 := by
        rw [hcount, hpred]
        rfl
      have hroom2 : rest.countP (fun e => decide (e.key ≠ none))
          < emptyCount (es.set r ⟨some k2, e.value⟩) := by
        omega
      obtain ⟨es2, cnt2, hfold, hlen2, habs2, hbound⟩ :=
        ih (es.set r ⟨some k2, e.value⟩) (cnt + 1) hlen1 habs1
          (fun x hx => holds x (List.mem_cons_of_mem e hx)) hroom2
      refine ⟨es2, cnt2, ?_, hlen2, habs2, by omega⟩
      rw [List.foldl_cons, hone]
      exact hfold

/-- adjustCapacity into a strictly larger capacity succeeds and leaves at
least (new capacity - old length) empty slots, preserving name-freeness. -/
theorem adjustCapacity_spec (t : Table) (cap : Nat) (name : StrKey) (hcap : 0 < cap)
    (hmore : t.entries.length < cap)
    (habs : ∀ e ∈ t.entries, e.key ≠ some name) :
    ∃ t1, adjustCapacity t cap = some t1 ∧
      t1.capacity = cap ∧ t1.entries.length = cap ∧
      (∀ e ∈ t1.entries, e.key ≠ some name) ∧
      cap - t.entries.length ≤ emptyCount t1.entries := by
  have hrep_len : (List.replicate cap emptyEntry).length = cap := by simp
  have hrep_abs : ∀ e ∈ List.replicate cap emptyEntry, e.key ≠ some name := by
    intro e he
    rw [List.eq_of_mem_replicate he]
    intro hc
    cases hc
  have hcle := List.countP_le_length (p := fun e : TEntry => decide (e.key ≠ none))
    (l := t.entries)
  have hroom : t.entries.countP (fun e => decide (e.key ≠ none))
      < emptyCount (List.replicate cap emptyEntry) := by
    rw [emptyCount_replicate]
    omega
  obtain ⟨es2, cnt2, hfold, hlen2, habs2, hbound⟩ :=
    adjust_fold_spec cap name hcap t.entries (List.replicate cap emptyEntry) t.count
      hrep_len hrep_abs habs hroom
  refine ⟨⟨cnt2, cap, es2⟩, ?_, rfl, hlen2, habs2, ?_⟩
  · unfold adjustCapacity
    rw [hfold]
  · show cap - t.entries.length ≤ emptyCount es2
    rw [emptyCount_replicate] at hbound
    omega

/-- tableSet on a well-formed table with the key absent: the call
succeeds, reports a new key, and writes the binding into the NULL-key
slot the probe found, n steps from hash % capacity past slots occupied by
other keys; the pre-write array keeps at least two truly empty slots (so
later probes on the written array still terminate) and stays free of the
key everywhere but the written slot. -/
theorem tableSet_spec (t : Table) (name : StrKey) (v : Value)
    (hwf : wfTable t) (habs : ∀ e ∈ t.entries, e.key ≠ some name) :
    ∃ E1 cap1 cnt2 n,
      tableSet t name v
        = some (⟨cnt2, cap1, E1.set ((name.hash % cap1 + n) % cap1) ⟨some name, v⟩⟩, true) ∧
      E1.length = cap1 ∧ 8 ≤ cap1 ∧ 1 ≤ cnt2 ∧ 2 ≤ emptyCount E1 ∧
      (∀ e ∈ E1, e.key ≠ some name) ∧ n < cap1 ∧
      (E1.getD ((name.hash % cap1 + n) % cap1) emptyEntry).key = none ∧
      ∀ i, i < n → occupiedOther E1 name ((name.hash % cap1 + i) % cap1) := by
  obtain ⟨hlen, hfull, hcapd⟩ := hwf
  have hmain : ∃ t1, (if 4 * (t.count + 1) > 3 * t.capacity
        then adjustCapacity t (GROW_CAPACITY t.capacity) else some t) = some t1 ∧
      t1.entries.length = t1.capacity ∧ 8 ≤ t1.capacity ∧
      2 ≤ emptyCount t1.entries ∧ ∀ e ∈ t1.entries, e.key ≠ some name := by
    by_cases hgrow : 4 * (t.count + 1) > 3 * t.capacity
    · rw [if_pos hgrow]
      have hcap0 : 0 < GROW_CAPACITY t.capacity := by
        unfold GROW_CAPACITY
        split <;> omega
      have hmore : t.entries.length < GROW_CAPACITY t.capacity := by
        rw [hlen]
        unfold GROW_CAPACITY
        split <;> omega
      obtain ⟨t1, hadj, hc1, hl1, ha1, he1⟩ :=
        adjustCapacity_spec t (GROW_CAPACITY t.capacity) name hcap0 hmore habs
      refine ⟨t1, hadj, by rw [hl1, hc1], ?_, ?_, ha1⟩
      · rw [hc1]
        unfold GROW_CAPACITY
        split <;> omega
      · rcases hcapd with h0 | h8
        · have hg : GROW_CAPACITY t.capacity = 8 := by
            unfold GROW_CAPACITY
            rw [if_pos (by omega)]
          omega
        · have hg : GROW_CAPACITY t.capacity = t.capacity * 2 := by
            unfold GROW_CAPACITY
            rw [if_neg (by omega)]
          omega
    · rw [if_neg hgrow]
      have hcapne : t.capacity ≠ 0 := by
        intro h0
        rw [h0] at hgrow
        omega
      have h8 : 8 ≤ t.capacity := by rcases hcapd with h0 | h8 <;> omega
      have hsplit := emptyCount_add_fullCount t.entries
      refine ⟨t, rfl, hlen, h8, by omega, habs⟩
  obtain ⟨t1, hT1, hlen1, hcap1, hemp1, habs1⟩ := hmain
  have hcap1pos : 0 < t1.capacity := by omega
  obtain ⟨n, hn, hfe, hkey, hocc⟩ :=
    findEntry_char t1.entries t1.capacity name habs1 hlen1 hcap1pos (by omega)
  refine ⟨t1.entries, t1.capacity,
    (if (t1.entries.getD ((name.hash % t1.capacity + n) % t1.capacity) emptyEntry).key = none ∧
        (t1.entries.getD ((name.hash % t1.capacity + n) % t1.capacity) emptyEntry).value
          = Value.nil
      then t1.count + 1 else t1.count)
      + (if (t1.entries.getD ((name.hash % t1.capacity + n) % t1.capacity) emptyEntry).key
          = none
         then 1 else 0),
    n, ?_, hlen1, hcap1, ?_, hemp1, habs1, hn, hkey, hocc⟩
  · simp only [tableSet, hT1, hfe]
    rw [hkey]
    rfl
  · rw [hkey]
    have hb : (if ((none : Option StrKey) = none) then 1 else 0) = 1 := by rw [if_pos rfl]
    omega

/-- C10: executing OP_SET_GLOBAL for a name with no existing binding in a
well-formed globals table raises the "Undefined variable" runtime error,
and the globals table it leaves behind again holds no binding for that
name — the tentative slot tableSet wrote is tombstoned by tableDelete
before the error is reported, so a subsequent lookup of the name misses. -/
theorem c10_theorem (t : Table) (name : StrKey) (v : Value)
    (hwf : wfTable t) (habs : ∀ e ∈ t.entries, e.key ≠ some name) :
    ∃ t2, opSetGlobal t name v = SetGlobalRes.undefinedVariable t2 ∧
      (∀ e ∈ t2.entries, e.key ≠ some name) ∧
      tableGet t2 name = GetRes.miss := by
  obtain ⟨E1, cap1, cnt2, n, hset, hlen1, hcap1, hcnt2, hemp1, habs1, hn, hkey, hocc⟩ :=
    tableSet_spec t name v hwf habs
  have hcap1pos : 0 < cap1 := by omega
  have hhlt : name.hash % cap1 < cap1 := Nat.mod_lt _ hcap1pos
  have hPlt : (name.hash % cap1 + n) % cap1 < cap1 := Nat.mod_lt _ hcap1pos
  have hPltLen : (name.hash % cap1 + n) % cap1 < E1.length := by
    rw [hlen1]
    exact hPlt
  have hkey2 : ((E1.set ((name.hash % cap1 + n) % cap1) ⟨some name, v⟩).getD
      ((name.hash % cap1 + n) % cap1) emptyEntry).key = some name := by
    rw [getD_set_self E1 _ hPltLen]
  have hocc2 : ∀ i, i < n →
      occupiedOther (E1.set ((name.hash % cap1 + n) % cap1) ⟨some name, v⟩) name
        ((name.hash % cap1 + i) % cap1) := by
    intro i hi
    obtain ⟨k2, hk2, hk2ne⟩ := hocc i hi
    have hne : (name.hash % cap1 + n) % cap1 ≠ (name.hash % cap1 + i) % cap1 := by
      intro hceq
      have hni := probe_inj hhlt hn (Nat.lt_trans hi hn) hceq
      omega
    refine ⟨k2, ?_, hk2ne⟩
    rw [getD_set_ne E1 _ _ hne]
    exact hk2
  have hfe2 : findEntry (E1.set ((name.hash % cap1 + n) % cap1) ⟨some name, v⟩) cap1 name
      = some ((name.hash % cap1 + n) % cap1) := by
    unfold findEntry
    exact findEntryAux_hit _ cap1 name n cap1 (name.hash % cap1) none hn hhlt hocc2 hkey2
  have hcne : ¬ cnt2 = 0 := by omega
  have hdel : tableDelete
      ⟨cnt2, cap1, E1.set ((name.hash % cap1 + n) % cap1) ⟨some name, v⟩⟩ name
      = some (⟨cnt2, cap1, E1.set ((name.hash % cap1 + n) % cap1) tombstoneEntry⟩, true) := by
    simp only [tableDelete, hfe2]
    rw [if_neg hcne, if_neg (by rw [hkey2]; intro hc; cases hc), List.set_set]
  have hlen3 : (E1.set ((name.hash % cap1 + n) % cap1) tombstoneEntry).length = cap1 := by
    rw [List.length_set]
    exact hlen1
  have htne : tombstoneEntry.key ≠ some name := by
    intro hc
    exact Option.noConfusion hc
  have habs3 : ∀ e ∈ E1.set ((name.hash % cap1 + n) % cap1) tombstoneEntry,
      e.key ≠ some name :=
    absent_set E1 _ tombstoneEntry name habs1 htne
  have hemp3 : 0 < emptyCount (E1.set ((name.hash % cap1 + n) % cap1) tombstoneEntry) := by
    have hcp := countP_set (fun e => isEmptySlot e) E1 ((name.hash % cap1 + n) % cap1)
      hPltLen tombstoneEntry emptyEntry
    rw [show isEmptySlot tombstoneEntry = false from rfl] at hcp
    rw [show (if (false : Bool) = true then 1 else 0) = 0 from rfl] at hcp
    unfold emptyCount at hemp1 ⊢
    by_cases hre : isEmptySlot (E1.getD ((name.hash % cap1 + n) % cap1) emptyEntry) = true
    · rw [if_pos hre] at hcp
      omega
    · rw [if_neg hre] at hcp
      omega
  obtain ⟨m, hm, hfe3, hkey3, hocc3⟩ :=
    findEntry_char (E1.set ((name.hash % cap1 + n) % cap1) tombstoneEntry) cap1 name
      habs3 hlen3 hcap1pos hemp3
  have hget : tableGet
      ⟨cnt2, cap1, E1.set ((name.hash % cap1 + n) % cap1) tombstoneEntry⟩ name
      = GetRes.miss := by
    simp only [tableGet, hfe3]
    rw [if_neg hcne, if_pos hkey3]
  refine ⟨⟨cnt2, cap1, E1.set ((name.hash % cap1 + n) % cap1) tombstoneEntry⟩,
    ?_, habs3, hget⟩
  simp only [opSetGlobal, hset]
  rw [hdel, if_pos trivial]

/-- C10 witness: on the concrete capacity-8 globals table (one live
binding, one tombstone) the undefined name with id 9 and hash 11 makes
OP_SET_GLOBAL report the undefined-variable error, and the table it
leaves holds no binding for that name and misses on lookup. -/
theorem c10_witness :
    wfTable c10Table ∧
    (∀ e ∈ c10Table.entries, e.key ≠ some c10Name) ∧
    ∃ t2, opSetGlobal c10Table c10Name (Value.number 5) = SetGlobalRes.undefinedVariable t2 ∧
      (∀ e ∈ t2.entries, e.key ≠ some c10Name) ∧
      tableGet t2 c10Name = GetRes.miss :=
  ⟨by unfold wfTable; decide, by decide,
    c10_theorem c10Table c10Name (Value.number 5) (by unfold wfTable; decide) (by decide)⟩

end CppLox
